import Mathlib

/-!
Verification development for the queue-master allocation engine
(source: src/src/App.tsx).

The data model and every operation below are shallow embeddings of the
TypeScript source.  React `useState` setters are modelled as pure state
transformers over an `AppState` record; `Math.random`-driven code
(`shuffleArr`) is parametrised by an explicit list of random draws, and
`Date.now()` by an explicit `now : Nat` argument.
-/

/-- `type Gender = "Male" | "Female" | "Other"` (App.tsx line 18). -/
inductive Gender
  | male
  | female
  | other
deriving DecidableEq

/-- `type Skill = "Novice" | "Intermediate" | "Advance"` (App.tsx line 19). -/
inductive Skill
  | novice
  | intermediate
  | advance
deriving DecidableEq

/-- `status: "pool" | "ready" | "playing"` (App.tsx line 27). -/
inductive Status
  | pool
  | ready
  | playing
deriving DecidableEq

/-- `type Player` (App.tsx lines 21-28). -/
structure Player where
  id : String
  name : String
  gender : Gender
  skill : Skill
  «matches» : Nat
  status : Status
deriving DecidableEq

/-- `type Court` (App.tsx lines 30-35).  `startedAt?: number | null`
is modelled as `Option Nat`. -/
structure Court where
  id : String
  name : String
  playingIds : List String
  startedAt : Option Nat
deriving DecidableEq

/-- The three `useState` collections owned by `QueueMasterApp`
(App.tsx lines 133-140): `players`, `courts`, `readySets`. -/
structure AppState where
  players : List Player
  courts : List Court
  readySets : List (List String)
deriving DecidableEq

/-- Initial state: empty player and court lists, one empty ready set
(the `loadLS` fallbacks at App.tsx lines 133-140). -/
def initState : AppState := ⟨[], [], [[]]⟩

/-- `SKILL_ORDER` (App.tsx lines 78-82). -/
def SKILL_ORDER : Skill → Nat
  | .novice => 1
  | .intermediate => 2
  | .advance => 3

/-- `shiftSetsAfterAssign` (App.tsx lines 93-99): splice out the set at
`index` and push a fresh empty set.  The source's final
`if (copy.length === 0) copy.push([])` is unreachable because an empty
set was just pushed, so the result is exactly `eraseIdx` plus `[[]]`. -/
def shiftSetsAfterAssign (sets : List (List String)) (index : Nat) : List (List String) :=
  sets.eraseIdx index ++ [[]]

/-- The inner `while (res[i].length < capacity && queueIds.length > 0)`
loop of `distributeFill` (App.tsx lines 109-113) applied to one group:
returns the filled group, the leftover queue, and the ids consumed. -/
def fillGroup (g : List String) (q : List String) (cap : Nat) :
    List String × List String × List String :=
  match q with
  | [] => (g, [], [])
  | x :: xs =>
    if g.length < cap then
      let r := fillGroup (g ++ [x]) xs cap
      (r.1, r.2.1, x :: r.2.2)
    else (g, x :: xs, [])

/-- The outer `for` loop of `distributeFill` (App.tsx lines 108-114),
threading the queue through the groups in order and concatenating the
`used` ids in push order. -/
def distAux (sets : List (List String)) (q : List String) (cap : Nat) :
    List (List String) × List String × List String :=
  match sets with
  | [] => ([], q, [])
  | g :: gs =>
    let r := fillGroup g q cap
    let r2 := distAux gs r.2.1 cap
    (r.1 :: r2.1, r2.2.1, r.2.2 ++ r2.2.2)

/-- `distributeFill` (App.tsx lines 101-117): fill every set from the
queue first-group-first; if the set list was empty, push one empty set. -/
def distributeFill (sets : List (List String)) (queueIds : List String) (capacity : Nat) :
    List (List String) × List String :=
  let r := distAux sets queueIds capacity
  (if r.1.isEmpty then [[]] else r.1, r.2.2)

/-- One swap step `[a[i], a[j]] = [a[j], a[i]]` of `shuffleArr`
(App.tsx line 73). -/
def swapIdx (l : List α) (i j : Nat) : List α :=
  match l.get? i, l.get? j with
  | some x, some y => (l.set i y).set j x
  | _, _ => l

/-- The Fisher-Yates loop of `shuffleArr` (App.tsx lines 71-74),
running `i` from high to low; each random draw
`Math.floor(Math.random() * (i + 1))` is supplied by the head of
`rand`, reduced mod `i + 1` to stay in range. -/
def fyGo (rand : List Nat) (i : Nat) (a : List α) : List α :=
  match i with
  | 0 => a
  | k + 1 => fyGo rand.tail k (swapIdx a (k + 1) (rand.headD 0 % (k + 2)))

/-- `shuffleArr` (App.tsx lines 69-76), with the stream of random draws
made explicit. -/
def shuffleArr (rand : List Nat) (arr : List α) : List α :=
  fyGo rand (arr.length - 1) arr

/-- Lexicographic comparison of the character sequences of two strings;
this models a non-positive `localeCompare` result (App.tsx line 282). -/
def strLeb : List Char → List Char → Bool
  | [], _ => true
  | _ :: _, [] => false
  | a :: as, b :: bs => if a < b then true else if b < a then false else strLeb as bs

/-- Name order used by the sort comparator tie-break. -/
def nameLe (a b : String) : Prop := strLeb a.data b.data = true

instance (a b : String) : Decidable (nameLe a b) :=
  inferInstanceAs (Decidable (strLeb a.data b.data = true))

/-- The order induced by the sort comparator of `fillAllSets`
(App.tsx lines 279-283): ascending `matches`, ties by ascending
`SKILL_ORDER`, then by name. -/
def playerBefore (a b : Player) : Prop :=
  a.«matches» < b.«matches» ∨
    (a.«matches» = b.«matches» ∧
      (SKILL_ORDER a.skill < SKILL_ORDER b.skill ∨
        (SKILL_ORDER a.skill = SKILL_ORDER b.skill ∧ nameLe a.name b.name)))

instance : DecidableRel playerBefore := fun a b =>
  decidable_of_iff
    (a.«matches» < b.«matches» ∨
      (a.«matches» = b.«matches» ∧
        (SKILL_ORDER a.skill < SKILL_ORDER b.skill ∨
          (SKILL_ORDER a.skill = SKILL_ORDER b.skill ∧ nameLe a.name b.name))))
    Iff.rfl

instance : IsTotal Player playerBefore :=
  ⟨fun a b => by
    have ht : ∀ u v : List Char, strLeb u v = true ∨ strLeb v u = true := by
      intro u
      induction u with
      | nil => intro v; exact Or.inl rfl
      | cons x as ih =>
        intro v
        cases v with
        | nil => exact Or.inr rfl
        | cons y bs =>
          by_cases hxy : x < y
          · exact Or.inl (by simp [strLeb, hxy])
          · by_cases hyx : y < x
            · exact Or.inr (by simp [strLeb, hyx])
            · have hxe : x = y := le_antisymm (not_lt.mp hyx) (not_lt.mp hxy)
              subst hxe
              rcases ih bs with h | h
              · exact Or.inl (by simp [strLeb, lt_irrefl, h])
              · exact Or.inr (by simp [strLeb, lt_irrefl, h])
    unfold playerBefore
    rcases Nat.lt_trichotomy a.«matches» b.«matches» with h | h | h
    · exact Or.inl (Or.inl h)
    · rcases Nat.lt_trichotomy (SKILL_ORDER a.skill) (SKILL_ORDER b.skill) with h2 | h2 | h2
      · exact Or.inl (Or.inr ⟨h, Or.inl h2⟩)
      · rcases ht a.name.data b.name.data with h3 | h3
        · exact Or.inl (Or.inr ⟨h, Or.inr ⟨h2, h3⟩⟩)
        · exact Or.inr (Or.inr ⟨h.symm, Or.inr ⟨h2.symm, h3⟩⟩)
      · exact Or.inr (Or.inr ⟨h.symm, Or.inl h2⟩)
    · exact Or.inr (Or.inl h)⟩

instance : IsTrans Player playerBefore :=
  ⟨fun a b c hab hbc => by
    have htr : ∀ u v w : List Char, strLeb u v = true → strLeb v w = true →
        strLeb u w = true := by
      intro u
      induction u with
      | nil => intro v w h1 h2; rfl
      | cons x as ih =>
        intro v w h1 h2
        cases v with
        | nil => simp [strLeb] at h1
        | cons y bs =>
          cases w with
          | nil => simp [strLeb] at h2
          | cons z cs =>
            by_cases hxy : x < y
            · by_cases hyz : y < z
              · simp [strLeb, lt_trans hxy hyz]
              · by_cases hzy : z < y
                · simp [strLeb, hyz, hzy] at h2
                · have hyze : y = z := le_antisymm (not_lt.mp hzy) (not_lt.mp hyz)
                  subst hyze
                  simp [strLeb, hxy]
            · by_cases hyx : y < x
              · simp [strLeb, hxy, hyx] at h1
              · have hxye : x = y := le_antisymm (not_lt.mp hyx) (not_lt.mp hxy)
                subst hxye
                simp only [strLeb, lt_irrefl, if_false] at h1
                by_cases hxz : x < z
                · simp [strLeb, hxz]
                · by_cases hzx : z < x
                  · simp [strLeb, hxz, hzx] at h2
                  · have hxze : x = z := le_antisymm (not_lt.mp hzx) (not_lt.mp hxz)
                    subst hxze
                    simp only [strLeb, lt_irrefl, if_false] at h2 ⊢
                    exact ih bs cs h1 h2
    unfold playerBefore at *
    rcases hab with h1 | ⟨e1, h1⟩ <;> rcases hbc with h2 | ⟨e2, h2⟩
    · exact Or.inl (by omega)
    · exact Or.inl (by omega)
    · exact Or.inl (by omega)
    · refine Or.inr ⟨by omega, ?_⟩
      rcases h1 with s1 | ⟨t1, n1⟩ <;> rcases h2 with s2 | ⟨t2, n2⟩
      · exact Or.inl (by omega)
      · exact Or.inl (by omega)
      · exact Or.inl (by omega)
      · exact Or.inr ⟨by omega, htr _ _ _ n1 n2⟩⟩

/-- `players.filter((p) => p.status === "pool")` (App.tsx line 276). -/
def poolOf (ps : List Player) : List Player :=
  ps.filter (fun p => decide (p.status = Status.pool))

/-- `players.some((p) => p.matches > 0)` (App.tsx line 277). -/
def anyMatches (ps : List Player) : Bool :=
  ps.any (fun p => decide (0 < p.«matches»))

/-- The selection queue of `fillAllSets` (App.tsx lines 276-284):
sorted by the comparator when anyone has completed a match, otherwise
shuffled.  The `[...pool].sort(cmp)` call (a sorted permutation under
the comparator's total preorder) is modelled by `List.insertionSort`. -/
def selectionQueue (ps : List Player) (rand : List Nat) : List Player :=
  let pool := poolOf ps
  if anyMatches ps then List.insertionSort playerBefore pool
  else shuffleArr rand pool

/-- `fillAllSets` (App.tsx lines 275-291). -/
def fillAllSets (σ : AppState) (rand : List Nat) : AppState :=
  let queue := selectionQueue σ.players rand
  let r := distributeFill σ.readySets (queue.map (·.id)) 4
  if r.2.isEmpty then σ
  else
    { σ with
      readySets := r.1,
      players := σ.players.map fun p =>
        if decide (p.id ∈ r.2) then { p with status := Status.ready } else p }

/-- `confirmAddPlayer` (App.tsx lines 193-206): declines on an empty
trimmed name, otherwise prepends a fresh `pool` player with 0 matches.
The generated `uid` is passed explicitly. -/
def confirmAddPlayer (σ : AppState) (id name : String) (gender : Gender) (skill : Skill) :
    AppState :=
  if name = "" then σ
  else { σ with players := ⟨id, name, gender, skill, 0, Status.pool⟩ :: σ.players }

/-- `deletePlayer` (App.tsx lines 218-230): filter the id out of every
ready set, out of any court occupancy containing it, and out of the
player list. -/
def deletePlayer (σ : AppState) (id : String) : AppState :=
  { σ with
    readySets := σ.readySets.map fun s => s.filter fun pid => decide (pid ≠ id),
    courts := σ.courts.map fun c =>
      if decide (id ∈ c.playingIds) then
        { c with playingIds := c.playingIds.filter fun x => decide (x ≠ id) }
      else c,
    players := σ.players.filter fun p => decide (p.id ≠ id) }

/-- `addToReady` (App.tsx lines 233-242): find the first set with fewer
than 4 ids; if none, decline; otherwise mark the id's player `ready`
and append the id to that set. -/
def addToReady (σ : AppState) (id : String) : AppState :=
  match σ.readySets.findIdx? (fun s => decide (s.length < 4)) with
  | none => σ
  | some t =>
    { σ with
      players := σ.players.map fun p =>
        if p.id = id then { p with status := Status.ready } else p,
      readySets := σ.readySets.set t ((σ.readySets.getD t []) ++ [id]) }

/-- `swapReadyWithPool` (App.tsx lines 251-261): decline unless a
(non-empty) id sits at `readyIndex` of set `setIndex`; otherwise set the
outgoing player to `pool`, the incoming to `ready`, and overwrite the
slot (the source's index-guarded `map` over the set is `List.set`). -/
def swapReadyWithPool (σ : AppState) (setIndex readyIndex : Nat) (poolPlayerId : String) :
    AppState :=
  match (σ.readySets.getD setIndex []).get? readyIndex with
  | none => σ
  | some outId =>
    if outId = "" then σ
    else
      let players1 := σ.players.map fun p =>
        if p.id = outId then { p with status := Status.pool } else p
      { σ with
        players := players1.map fun p =>
          if p.id = poolPlayerId then { p with status := Status.ready } else p,
        readySets := σ.readySets.set setIndex
          ((σ.readySets.getD setIndex []).set readyIndex poolPlayerId) }

/-- `addCourt` (App.tsx lines 294-298): append an idle court whose
display name is derived from the current count; the `uid` is passed
explicitly. -/
def addCourt (σ : AppState) (cid : String) : AppState :=
  { σ with
    courts := σ.courts ++ [⟨cid, "Court " ++ toString (σ.courts.length + 1), [], none⟩] }

/-- `removeCourt` (App.tsx lines 300-308): if the court exists and is
occupied, return its occupants to `pool` with `matches + 1`; then drop
every court with that id. -/
def removeCourt (σ : AppState) (cid : String) : AppState :=
  let court? := σ.courts.find? fun c => decide (c.id = cid)
  let players' :=
    match court? with
    | some c =>
      if c.playingIds.isEmpty then σ.players
      else σ.players.map fun p =>
        if decide (p.id ∈ c.playingIds) then
          { p with status := Status.pool, «matches» := p.«matches» + 1 }
        else p
    | none => σ.players
  { σ with players := players', courts := σ.courts.filter fun c => decide (c.id ≠ cid) }

/-- `assignSetToCourt` (App.tsx lines 310-317): decline unless the set
at `setIndex` holds exactly 4 ids; otherwise put those ids (with a start
timestamp) on every court whose id is `courtId`, mark the 4 players
`playing`, and rotate the sets via `shiftSetsAfterAssign`. -/
def assignSetToCourt (σ : AppState) (setIndex : Nat) (courtId : String) (now : Nat) :
    AppState :=
  let ids := σ.readySets.getD setIndex []
  if ids.length = 4 then
    { σ with
      courts := σ.courts.map fun c =>
        if c.id = courtId then { c with playingIds := ids, startedAt := some now } else c,
      players := σ.players.map fun p =>
        if decide (p.id ∈ ids) then { p with status := Status.playing } else p,
      readySets := shiftSetsAfterAssign σ.readySets setIndex }
  else σ

/-- `removeSet` (App.tsx lines 319-330): return the removed set's
occupants to `pool`, splice the set out, and keep at least one
(possibly empty) set. -/
def removeSet (σ : AppState) (setIndex : Nat) : AppState :=
  let current := σ.readySets.getD setIndex []
  let players' :=
    if current.isEmpty then σ.players
    else σ.players.map fun p =>
      if decide (p.id ∈ current) then { p with status := Status.pool } else p
  let copy := σ.readySets.eraseIdx setIndex
  { σ with players := players', readySets := if copy.isEmpty then [[]] else copy }

/-- `endMatch` (App.tsx lines 332-340): decline if the court does not
exist; otherwise bump each occupant's `matches`, return them to `pool`,
and clear every court with that id to idle. -/
def endMatch (σ : AppState) (courtId : String) : AppState :=
  match σ.courts.find? (fun c => decide (c.id = courtId)) with
  | none => σ
  | some court =>
    let ids := court.playingIds
    let players' :=
      if ids.isEmpty then σ.players
      else σ.players.map fun p =>
        if decide (p.id ∈ ids) then { p with «matches» := p.«matches» + 1, status := Status.pool }
        else p
    { σ with
      players := players',
      courts := σ.courts.map fun c =>
        if c.id = courtId then { c with playingIds := [], startedAt := none } else c }

/-- The `+` button of the Ready panel (App.tsx line 474):
`setReadySets((sets) => [...sets, []])`. -/
def createSet (σ : AppState) : AppState :=
  { σ with readySets := σ.readySets ++ [[]] }

/-- The sanitize effect (App.tsx lines 183-185): strip from every set
any id that no longer resolves to an existing player. -/
def sanitizeSets (σ : AppState) : AppState :=
  { σ with
    readySets := σ.readySets.map fun s =>
      s.filter fun id => σ.players.any fun p => decide (p.id = id) }

/-- The concrete pool of the spec's fairness example: session counters
[2, 0, 1, 0], equal tiers, everybody in `Pool`. -/
def exFairness : List Player :=
  [⟨"a1", "A", Gender.male, Skill.novice, 2, Status.pool⟩,
   ⟨"b1", "B", Gender.male, Skill.novice, 0, Status.pool⟩,
   ⟨"c1", "C", Gender.male, Skill.novice, 1, Status.pool⟩,
   ⟨"d1", "D", Gender.male, Skill.novice, 0, Status.pool⟩]

/-- The ids consumed by `fillAllSets` from state `σ` with random draws
`rand` (the `used` component of `distributeFill`). -/
def usedOf (σ : AppState) (rand : List Nat) : List String :=
  (distributeFill σ.readySets ((selectionQueue σ.players rand).map (·.id)) 4).2

/-- One engine operation, with the arguments a caller may pass —
no validation beyond what the source functions themselves perform. -/
inductive StepA : AppState → AppState → Prop
  | addP (σ : AppState) (id name : String) (g : Gender) (sk : Skill) :
      StepA σ (confirmAddPlayer σ id name g sk)
  | delP (σ : AppState) (id : String) : StepA σ (deletePlayer σ id)
  | promote (σ : AppState) (id : String) : StepA σ (addToReady σ id)
  | swapP (σ : AppState) (i j : Nat) (pid : String) :
      StepA σ (swapReadyWithPool σ i j pid)
  | fill (σ : AppState) (rand : List Nat) : StepA σ (fillAllSets σ rand)
  | newCourt (σ : AppState) (cid : String) : StepA σ (addCourt σ cid)
  | delCourt (σ : AppState) (cid : String) : StepA σ (removeCourt σ cid)
  | assign (σ : AppState) (i : Nat) (cid : String) (now : Nat) :
      StepA σ (assignSetToCourt σ i cid now)
  | delSet (σ : AppState) (i : Nat) : StepA σ (removeSet σ i)
  | endS (σ : AppState) (cid : String) : StepA σ (endMatch σ cid)
  | newSet (σ : AppState) : StepA σ (createSet σ)
  | sanitize (σ : AppState) : StepA σ (sanitizeSets σ)

/-- States reachable from the initial state by engine operations. -/
inductive ReachA : AppState → Prop
  | init : ReachA initState
  | step {σ σ' : AppState} : ReachA σ → StepA σ σ' → ReachA σ'

/-- The station-occupancy property: no court is partially occupied. -/
def CourtsOk (σ : AppState) : Prop :=
  ∀ c ∈ σ.courts, c.playingIds.length = 0 ∨ c.playingIds.length = 4

/-- One engine operation, where `DeleteParticipant` is only applied to
a participant occupying no station (the other operations take arbitrary
arguments, as in `StepA`). -/
inductive StepD : AppState → AppState → Prop
  | addP (σ : AppState) (id name : String) (g : Gender) (sk : Skill) :
      StepD σ (confirmAddPlayer σ id name g sk)
  | delP (σ : AppState) (id : String) (h : ∀ c ∈ σ.courts, id ∉ c.playingIds) :
      StepD σ (deletePlayer σ id)
  | promote (σ : AppState) (id : String) : StepD σ (addToReady σ id)
  | swapP (σ : AppState) (i j : Nat) (pid : String) :
      StepD σ (swapReadyWithPool σ i j pid)
  | fill (σ : AppState) (rand : List Nat) : StepD σ (fillAllSets σ rand)
  | newCourt (σ : AppState) (cid : String) : StepD σ (addCourt σ cid)
  | delCourt (σ : AppState) (cid : String) : StepD σ (removeCourt σ cid)
  | assign (σ : AppState) (i : Nat) (cid : String) (now : Nat) :
      StepD σ (assignSetToCourt σ i cid now)
  | delSet (σ : AppState) (i : Nat) : StepD σ (removeSet σ i)
  | endS (σ : AppState) (cid : String) : StepD σ (endMatch σ cid)
  | newSet (σ : AppState) : StepD σ (createSet σ)
  | sanitize (σ : AppState) : StepD σ (sanitizeSets σ)

/-- Reachability when deletion is only used on non-occupants. -/
inductive ReachD : AppState → Prop
  | init : ReachD initState
  | step {σ σ' : AppState} : ReachD σ → StepD σ σ' → ReachD σ'

/-- Number of occurrences of id `x` across all ready sets. -/
def gOcc (σ : AppState) (x : String) : Nat := σ.readySets.flatten.count x

/-- Number of occurrences of id `x` across all court occupancies. -/
def cOcc (σ : AppState) (x : String) : Nat :=
  (σ.courts.map Court.playingIds).flatten.count x

/-- The status of a player record matches its collection memberships. -/
def statusOk (σ : AppState) (p : Player) : Prop :=
  match p.status with
  | Status.pool => gOcc σ p.id = 0 ∧ cOcc σ p.id = 0
  | Status.ready => gOcc σ p.id = 1 ∧ cOcc σ p.id = 0
  | Status.playing => gOcc σ p.id = 0 ∧ cOcc σ p.id = 1

/-- The inductive invariant: distinct player ids, distinct court ids,
every id occurring in a set or court belongs to an existing player, and
every player's status matches its memberships. -/
def SInv (σ : AppState) : Prop :=
  (σ.players.map Player.id).Nodup ∧
  (σ.courts.map Court.id).Nodup ∧
  (∀ x : String, gOcc σ x + cOcc σ x ≠ 0 → x ∈ σ.players.map Player.id) ∧
  (∀ p ∈ σ.players, statusOk σ p)

/-- One engine operation invoked with valid arguments: fresh ids on
creation, `Promote`/`Swap` on an existing `pool` participant, and
assignment to an existing idle station — the preconditions the UI layer
enforces before issuing the command. -/
inductive GStep : AppState → AppState → Prop
  | addP (σ : AppState) (id name : String) (g : Gender) (sk : Skill)
      (h : id ∉ σ.players.map Player.id) :
      GStep σ (confirmAddPlayer σ id name g sk)
  | delP (σ : AppState) (id : String) : GStep σ (deletePlayer σ id)
  | promote (σ : AppState) (id : String)
      (h : ∃ p ∈ σ.players, p.id = id ∧ p.status = Status.pool) :
      GStep σ (addToReady σ id)
  | swapP (σ : AppState) (i j : Nat) (pid : String)
      (h : ∃ p ∈ σ.players, p.id = pid ∧ p.status = Status.pool) :
      GStep σ (swapReadyWithPool σ i j pid)
  | fill (σ : AppState) (rand : List Nat) : GStep σ (fillAllSets σ rand)
  | newCourt (σ : AppState) (cid : String) (h : cid ∉ σ.courts.map Court.id) :
      GStep σ (addCourt σ cid)
  | delCourt (σ : AppState) (cid : String) : GStep σ (removeCourt σ cid)
  | assign (σ : AppState) (i : Nat) (cid : String) (now : Nat)
      (h : ∃ c ∈ σ.courts, c.id = cid ∧ c.playingIds = []) :
      GStep σ (assignSetToCourt σ i cid now)
  | delSet (σ : AppState) (i : Nat) : GStep σ (removeSet σ i)
  | endS (σ : AppState) (cid : String) : GStep σ (endMatch σ cid)
  | newSet (σ : AppState) : GStep σ (createSet σ)
  | sanitize (σ : AppState) : GStep σ (sanitizeSets σ)

/-- Reachability under valid-argument operations. -/
inductive GReach : AppState → Prop
  | init : GReach initState
  | step {σ σ' : AppState} : GReach σ → GStep σ σ' → GReach σ'

/-! ## List decomposition helpers -/

/-- A list with `x` at position `i` splits as `take i ++ x :: drop (i+1)`. -/
theorem getQ_decomp {α : Type} {l : List α} {i : Nat} {x : α}
    (h : l.get? i = some x) : l = l.take i ++ x :: l.drop (i + 1) := by
  rw [List.get?_eq_getElem?, List.getElem?_eq_some] at h
  obtain ⟨hi, hx⟩ := h
  conv_lhs => rw [← List.take_append_drop i l, List.drop_eq_getElem_cons hi, hx]

/-- `getD` agrees with `get?` at in-range indices. -/
theorem getD_eq_of_get? {α : Type} {l : List α} {i : Nat} {x : α} {d : α}
    (h : l.get? i = some x) : l.getD i d = x := by
  rw [List.getD_eq_getElem?_getD, ← List.get?_eq_getElem?, h]; rfl

/-- An out-of-range `get?` makes `getD` return the default. -/
theorem getD_eq_default_of_none {α : Type} {l : List α} {i : Nat} {d : α}
    (h : l.get? i = none) : l.getD i d = d := by
  rw [List.getD_eq_getElem?_getD, ← List.get?_eq_getElem?, h]; rfl

/-! ## Claim C1 / C8: AssignGroupToStation -/

/-- Removing a non-empty set at a valid index and appending `[]` changes
the multiset of sets, hence the list. -/
theorem shiftSets_ne {sets : List (List String)} {i : Nat} {g : List String}
    (hg : sets.get? i = some g) (hne : g ≠ []) :
    shiftSetsAfterAssign sets i ≠ sets := by
  intro h
  have hcount := congrArg (List.count ([] : List String)) h
  rw [shiftSetsAfterAssign, List.eraseIdx_eq_take_drop_succ] at hcount
  conv_rhs at hcount => rw [getQ_decomp hg]
  simp only [List.count_append, List.count_cons, List.count_nil] at hcount
  have hgf : (g == ([] : List String)) = false := beq_eq_false_iff_ne.mpr hne
  rw [hgf] at hcount
  simp only [beq_self_eq_true, if_true, Bool.false_eq_true, if_false] at hcount
  omega

/-- C1 (amended): `assignSetToCourt` is a silent no-op exactly when the
set at `setIndex` does not hold 4 ids; the idleness (or existence) of
the target court is not checked, so with a full set the state always
mutates. -/
theorem assignSetToCourt_noop_iff (σ : AppState) (i : Nat) (cid : String) (now : Nat) :
    assignSetToCourt σ i cid now = σ ↔ (σ.readySets.getD i []).length ≠ 4 := by
  constructor
  · intro h hlen
    have hi : ∃ g, σ.readySets.get? i = some g := by
      cases hq : σ.readySets.get? i with
      | none =>
        rw [getD_eq_default_of_none hq] at hlen
        simp at hlen
      | some g => exact ⟨g, rfl⟩
    obtain ⟨g, hg⟩ := hi
    have hgd : σ.readySets.getD i [] = g := getD_eq_of_get? hg
    have hglen : g.length = 4 := by rw [← hgd]; exact hlen
    have hsets := congrArg AppState.readySets h
    rw [assignSetToCourt] at hsets
    simp only [hlen, if_pos] at hsets
    exact shiftSets_ne hg (by intro hnil; rw [hnil] at hglen; simp at hglen) hsets
  · intro h
    rw [assignSetToCourt]
    simp only [ite_eq_right_iff]
    intro hlen
    exact absurd hlen (by simpa using h)

/-- C1 counterexample to the claim as stated: a full set assigned to a
busy (non-idle) station still mutates the state — the occupancy of the
busy court is overwritten. -/
theorem assign_busy_station_counterexample :
    let σ : AppState :=
      ⟨[], [⟨"c1", "Court 1", ["x"], some 5⟩], [["a", "b", "c", "d"]]⟩
    (σ.readySets.getD 0 []).length = 4 ∧
    (∃ c ∈ σ.courts, c.id = "c1" ∧ c.playingIds ≠ []) ∧
    assignSetToCourt σ 0 "c1" 0 ≠ σ := by
  refine ⟨rfl, ⟨⟨"c1", "Court 1", ["x"], some 5⟩, by simp, rfl, by simp⟩, ?_⟩
  decide

/-- C8: a successful assignment (the set at `i` holds exactly 4 ids)
removes that set, appends a fresh empty set, keeps the total number of
sets (never below 1) and shifts every later set one index toward 0. -/
theorem assignSetToCourt_rotates (σ : AppState) (i : Nat) (cid : String) (now : Nat)
    (g : List String) (hg : σ.readySets.get? i = some g) (hlen : g.length = 4) :
    (assignSetToCourt σ i cid now).readySets
        = σ.readySets.take i ++ σ.readySets.drop (i + 1) ++ [[]] ∧
    (assignSetToCourt σ i cid now).readySets.length = σ.readySets.length ∧
    1 ≤ (assignSetToCourt σ i cid now).readySets.length ∧
    (∀ j, j < i →
      (assignSetToCourt σ i cid now).readySets.get? j = σ.readySets.get? j) ∧
    (∀ j, i ≤ j → j + 1 < σ.readySets.length →
      (assignSetToCourt σ i cid now).readySets.get? j = σ.readySets.get? (j + 1)) := by
  have hi : i < σ.readySets.length := by
    by_contra hnot
    rw [List.get?_eq_getElem?, List.getElem?_eq_none (by omega)] at hg
    exact Option.noConfusion hg
  have hgd : σ.readySets.getD i [] = g := getD_eq_of_get? hg
  have hsets : (assignSetToCourt σ i cid now).readySets
      = σ.readySets.take i ++ σ.readySets.drop (i + 1) ++ [[]] := by
    rw [assignSetToCourt]
    simp only [hgd, hlen, if_pos]
    rw [shiftSetsAfterAssign, List.eraseIdx_eq_take_drop_succ]
  have hlen_take : (List.take i σ.readySets).length = i := by
    rw [List.length_take]; omega
  refine ⟨hsets, ?_, ?_, ?_, ?_⟩
  · rw [hsets]
    simp only [List.length_append, List.length_take, List.length_drop,
      List.length_cons, List.length_nil]
    omega
  · rw [hsets]
    simp only [List.length_append, List.length_take, List.length_drop,
      List.length_cons, List.length_nil]
    omega
  · intro j hj
    rw [hsets, List.get?_eq_getElem?, List.get?_eq_getElem?, List.append_assoc,
      List.getElem?_append, if_pos (by rw [hlen_take]; omega : j < (List.take i σ.readySets).length),
      List.getElem?_take, if_pos hj]
  · intro j hij hj
    rw [hsets, List.get?_eq_getElem?, List.get?_eq_getElem?, List.append_assoc,
      List.getElem?_append,
      if_neg (by rw [hlen_take]; omega : ¬ j < (List.take i σ.readySets).length),
      hlen_take, List.getElem?_append,
      if_pos (by rw [List.length_drop]; omega : j - i < (List.drop (i + 1) σ.readySets).length),
      List.getElem?_drop]
    congr 1
    omega

/-- C8 witness: from `[G0 = [a,b,c,d] (full), G1 = [e]]`, assigning set 0
yields the set sequence `[[e], []]`. -/
theorem assignSetToCourt_rotates_witness :
    (assignSetToCourt ⟨[], [], [["a", "b", "c", "d"], ["e"]]⟩ 0 "c1" 0).readySets
      = [["e"], []] := by
  have h := assignSetToCourt_rotates ⟨[], [], [["a", "b", "c", "d"], ["e"]]⟩ 0 "c1" 0
    ["a", "b", "c", "d"] rfl rfl
  simpa using h.1

/-! ## Claim C9: EndStationSession -/

/-- Mapping a function that fixes every element of a list is the
identity. -/
theorem map_eq_self_of {α : Type} {f : α → α} {l : List α}
    (h : ∀ a ∈ l, f a = a) : l.map f = l := by
  induction l with
  | nil => rfl
  | cons x xs ih => simp_all

/-- C9: `endMatch` on an idle station (every court carrying the id has
empty occupancy and no timestamp) changes nothing; on an occupied
station it bumps each occupant's match counter by exactly 1 and returns
it to `pool`, leaves every other player untouched, clears every court
with that id to idle (empty occupancy, no timestamp), leaves other
courts untouched, and does not touch the ready sets. -/
theorem endMatch_spec (σ : AppState) (cid : String) :
    ((∀ c ∈ σ.courts, c.id = cid → c.playingIds = [] ∧ c.startedAt = none) →
      endMatch σ cid = σ) ∧
    (∀ c, σ.courts.find? (fun c => decide (c.id = cid)) = some c →
      c.playingIds ≠ [] →
      (∀ k p, σ.players.get? k = some p →
        (endMatch σ cid).players.get? k =
          some (if p.id ∈ c.playingIds
                then { p with «matches» := p.«matches» + 1, status := Status.pool }
                else p)) ∧
      (∀ k c2, σ.courts.get? k = some c2 →
        (endMatch σ cid).courts.get? k =
          some (if c2.id = cid then { c2 with playingIds := [], startedAt := none }
                else c2)) ∧
      (endMatch σ cid).readySets = σ.readySets) := by
  constructor
  · intro hidle
    rw [endMatch]
    cases hfind : σ.courts.find? (fun c => decide (c.id = cid)) with
    | none => rfl
    | some c =>
      have hmem := List.mem_of_find?_eq_some hfind
      have hcid : c.id = cid := by
        have := List.find?_some hfind
        simpa using this
      obtain ⟨hempty, -⟩ := hidle c hmem hcid
      have hplayers : (if c.playingIds.isEmpty then σ.players
          else σ.players.map fun p =>
            if decide (p.id ∈ c.playingIds) then
              { p with «matches» := p.«matches» + 1, status := Status.pool }
            else p) = σ.players := by
        rw [hempty]; rfl
      have hcourts : (σ.courts.map fun c2 =>
          if c2.id = cid then { c2 with playingIds := [], startedAt := none }
          else c2) = σ.courts := by
        apply map_eq_self_of
        intro c2 hc2
        by_cases h2 : c2.id = cid
        · obtain ⟨h2e, h2s⟩ := hidle c2 hc2 h2
          rw [if_pos h2]
          cases c2
          simp_all
        · rw [if_neg h2]
      simp only [hplayers, hcourts]
  · intro c hfind hocc
    rw [endMatch, hfind]
    have hne : c.playingIds.isEmpty = false := by
      cases hpi : c.playingIds with
      | nil => exact absurd hpi hocc
      | cons x xs => rfl
    refine ⟨?_, ?_, ?_⟩
    · intro k p hk
      simp only [hne, Bool.false_eq_true, if_false, List.get?_eq_getElem?,
        List.getElem?_map]
      rw [List.get?_eq_getElem?] at hk
      rw [hk]
      simp only [Option.map_some', Option.some.injEq]
      by_cases hp : p.id ∈ c.playingIds
      · rw [if_pos hp, if_pos (by simpa using hp)]
      · rw [if_neg hp, if_neg (by simpa using hp)]
    · intro k c2 hk
      simp only [List.get?_eq_getElem?, List.getElem?_map]
      rw [List.get?_eq_getElem?] at hk
      rw [hk]
      rfl
    · rfl

/-- C9 witness: a court with 4 occupants; ending its session increments
each occupant's counter to 1, sets it back to `pool`, and idles the
court. -/
theorem endMatch_spec_witness :
    (endMatch
        ⟨[⟨"a", "A", Gender.male, Skill.novice, 0, Status.playing⟩],
         [⟨"c1", "Court 1", ["a", "b", "c", "d"], some 3⟩], [[]]⟩ "c1").players.get? 0
      = some ⟨"a", "A", Gender.male, Skill.novice, 1, Status.pool⟩ ∧
    (endMatch
        ⟨[⟨"a", "A", Gender.male, Skill.novice, 0, Status.playing⟩],
         [⟨"c1", "Court 1", ["a", "b", "c", "d"], some 3⟩], [[]]⟩ "c1").courts.get? 0
      = some ⟨"c1", "Court 1", [], none⟩ := by
  have h := (endMatch_spec
    ⟨[⟨"a", "A", Gender.male, Skill.novice, 0, Status.playing⟩],
     [⟨"c1", "Court 1", ["a", "b", "c", "d"], some 3⟩], [[]]⟩ "c1").2
    ⟨"c1", "Court 1", ["a", "b", "c", "d"], some 3⟩ (by decide) (by decide)
  refine ⟨?_, ?_⟩
  · have := h.1 0 ⟨"a", "A", Gender.male, Skill.novice, 0, Status.playing⟩ rfl
    simpa using this
  · have := h.2.1 0 ⟨"c1", "Court 1", ["a", "b", "c", "d"], some 3⟩ rfl
    simpa using this

/-! ## Claim C10: DeleteParticipant of a station occupant -/

/-- C10: `deletePlayer` of an id occupying a station removes exactly
that id from the occupancy (order of the rest preserved), keeps the
station's timestamp, leaves every court not containing the id
untouched, leaves every set not containing the id untouched, and keeps
every other player's record (status and counter) unchanged. -/
theorem deletePlayer_station_frame (σ : AppState) (id : String) :
    (∀ k c, σ.courts.get? k = some c → id ∈ c.playingIds →
      (deletePlayer σ id).courts.get? k =
        some { c with playingIds := c.playingIds.filter fun x => decide (x ≠ id) }) ∧
    (∀ k c, σ.courts.get? k = some c → id ∉ c.playingIds →
      (deletePlayer σ id).courts.get? k = some c) ∧
    (∀ k g, σ.readySets.get? k = some g → id ∉ g →
      (deletePlayer σ id).readySets.get? k = some g) ∧
    (∀ p ∈ σ.players, p.id ≠ id → p ∈ (deletePlayer σ id).players) := by
  refine ⟨?_, ?_, ?_, ?_⟩
  · intro k c hk hid
    simp only [deletePlayer, List.get?_eq_getElem?, List.getElem?_map]
    rw [List.get?_eq_getElem?] at hk
    rw [hk]
    simp only [Option.map_some', Option.some.injEq]
    rw [if_pos (by simpa using hid)]
  · intro k c hk hid
    simp only [deletePlayer, List.get?_eq_getElem?, List.getElem?_map]
    rw [List.get?_eq_getElem?] at hk
    rw [hk]
    simp only [Option.map_some', Option.some.injEq]
    rw [if_neg (by simpa using hid)]
  · intro k g hk hid
    simp only [deletePlayer, List.get?_eq_getElem?, List.getElem?_map]
    rw [List.get?_eq_getElem?] at hk
    rw [hk]
    simp only [Option.map_some', Option.some.injEq]
    apply List.filter_eq_self.mpr
    intro x hx
    simp only [decide_eq_true_eq]
    intro hxid
    exact hid (hxid ▸ hx)
  · intro p hp hpid
    simp only [deletePlayer]
    exact List.mem_filter.mpr ⟨hp, by simpa using hpid⟩

/-- C10 witness: deleting occupant `"a"` of a busy court leaves the
other three occupants and the start timestamp in place, and the other
player record untouched. -/
theorem deletePlayer_station_frame_witness :
    (deletePlayer
        ⟨[⟨"a", "A", Gender.male, Skill.novice, 0, Status.playing⟩,
          ⟨"b", "B", Gender.male, Skill.novice, 2, Status.playing⟩],
         [⟨"c1", "Court 1", ["a", "b", "c", "d"], some 3⟩], [[]]⟩ "a").courts.get? 0
      = some ⟨"c1", "Court 1", ["b", "c", "d"], some 3⟩ ∧
    (⟨"b", "B", Gender.male, Skill.novice, 2, Status.playing⟩ : Player) ∈
      (deletePlayer
        ⟨[⟨"a", "A", Gender.male, Skill.novice, 0, Status.playing⟩,
          ⟨"b", "B", Gender.male, Skill.novice, 2, Status.playing⟩],
         [⟨"c1", "Court 1", ["a", "b", "c", "d"], some 3⟩], [[]]⟩ "a").players := by
  have h := deletePlayer_station_frame
    ⟨[⟨"a", "A", Gender.male, Skill.novice, 0, Status.playing⟩,
      ⟨"b", "B", Gender.male, Skill.novice, 2, Status.playing⟩],
     [⟨"c1", "Court 1", ["a", "b", "c", "d"], some 3⟩], [[]]⟩ "a"
  refine ⟨?_, ?_⟩
  · have := h.1 0 ⟨"c1", "Court 1", ["a", "b", "c", "d"], some 3⟩ rfl (by decide)
    simpa using this
  · exact h.2.2.2 ⟨"b", "B", Gender.male, Skill.novice, 2, Status.playing⟩
      (by decide) (by decide)

/-! ## Claim C4: Promote (addToReady) -/

/-- C4 counterexample to the claim as stated: `addToReady` performs no
existence or `pool`-status validation — promoting an id that belongs to
no participant still appends it to the first group with space. -/
theorem addToReady_ghost_counterexample :
    (⟨[], [], [[]]⟩ : AppState).players = [] ∧
    (addToReady ⟨[], [], [[]]⟩ "z").readySets = [["z"]] ∧
    addToReady ⟨[], [], [[]]⟩ "z" ≠ ⟨[], [], [[]]⟩ := by
  decide

/-- C4 (amended): `addToReady id` is a no-op exactly when every group
is full; otherwise — with no check of the id's existence or status —
the id is appended to the first group with space (the other groups and
the courts untouched) and every player with that id becomes `ready`. -/
theorem addToReady_spec (σ : AppState) (id : String) :
    (addToReady σ id = σ ↔ ∀ g ∈ σ.readySets, ¬ g.length < 4) ∧
    (∀ t, σ.readySets.findIdx? (fun s => decide (s.length < 4)) = some t →
      (addToReady σ id).readySets.get? t = some ((σ.readySets.getD t []) ++ [id]) ∧
      (∀ j, j ≠ t → (addToReady σ id).readySets.get? j = σ.readySets.get? j) ∧
      (∀ k p, σ.players.get? k = some p →
        (addToReady σ id).players.get? k =
          some (if p.id = id then { p with status := Status.ready } else p)) ∧
      (addToReady σ id).courts = σ.courts) := by
  constructor
  · constructor
    · intro h g hg hglen
      have hsome : σ.readySets.findIdx? (fun s => decide (s.length < 4))
          = some (σ.readySets.findIdx (fun s => decide (s.length < 4))) :=
        List.findIdx?_eq_some_of_exists ⟨g, hg, by simpa using hglen⟩
      set t := σ.readySets.findIdx (fun s => decide (s.length < 4)) with ht
      have hlt : t < σ.readySets.length := by
        have := List.findIdx?_eq_some_iff_getElem.mp hsome
        exact this.1
      have hsets := congrArg AppState.readySets h
      rw [addToReady, hsome] at hsets
      dsimp only at hsets
      have hget : (σ.readySets.set t ((σ.readySets.getD t []) ++ [id])).get? t
          = some ((σ.readySets.getD t []) ++ [id]) := by
        rw [List.get?_eq_getElem?]
        exact List.getElem?_set_eq_of_lt _ hlt
      rw [hsets] at hget
      have hgt : σ.readySets.get? t = some (σ.readySets.getD t []) := by
        rw [List.get?_eq_getElem?, List.getElem?_eq_getElem hlt]
        rw [List.getD_eq_getElem?_getD, List.getElem?_eq_getElem hlt]
        rfl
      rw [hgt] at hget
      have := Option.some.inj hget
      have hlen := congrArg List.length this
      simp at hlen
    · intro h
      have hnone : σ.readySets.findIdx? (fun s => decide (s.length < 4)) = none := by
        rw [List.findIdx?_eq_none_iff]
        intro g hg
        simpa using h g hg
      rw [addToReady, hnone]
  · intro t hfind
    have hlt : t < σ.readySets.length :=
      (List.findIdx?_eq_some_iff_getElem.mp hfind).1
    rw [addToReady, hfind]
    dsimp only
    refine ⟨?_, ?_, ?_, rfl⟩
    · rw [List.get?_eq_getElem?]
      exact List.getElem?_set_eq_of_lt _ hlt
    · intro j hj
      rw [List.get?_eq_getElem?, List.get?_eq_getElem?]
      exact List.getElem?_set_ne (by omega)
    · intro k p hk
      rw [List.get?_eq_getElem?] at hk
      rw [List.get?_eq_getElem?, List.getElem?_map, hk]
      simp only [Option.map_some', Option.some.injEq]

/-- C4 witness: with one group `["a"]` having space and a `pool`
participant `b`, promotion appends `b` to that group and stages the
player. -/
theorem addToReady_spec_witness :
    (addToReady
        ⟨[⟨"b", "B", Gender.male, Skill.novice, 0, Status.pool⟩], [], [["a"]]⟩
        "b").readySets.get? 0 = some ["a", "b"] ∧
    (addToReady
        ⟨[⟨"b", "B", Gender.male, Skill.novice, 0, Status.pool⟩], [], [["a"]]⟩
        "b").players.get? 0
      = some ⟨"b", "B", Gender.male, Skill.novice, 0, Status.ready⟩ := by
  have h := (addToReady_spec
    ⟨[⟨"b", "B", Gender.male, Skill.novice, 0, Status.pool⟩], [], [["a"]]⟩ "b").2
    0 (by decide)
  refine ⟨by simpa using h.1, ?_⟩
  have := h.2.2.1 0 ⟨"b", "B", Gender.male, Skill.novice, 0, Status.pool⟩ rfl
  simpa using this

/-! ## Claim C5: SwapGroupMember -/

/-- C5 counterexample to the claim as stated: the incoming id's
`pool`-status precondition is not checked — swapping in a `playing`
participant still mutates the state. -/
theorem swap_nonpool_counterexample :
    (∀ p ∈ (⟨[⟨"b", "B", Gender.male, Skill.novice, 0, Status.playing⟩], [],
        [["a"]]⟩ : AppState).players, p.id = "b" → p.status ≠ Status.pool) ∧
    (swapReadyWithPool
        ⟨[⟨"b", "B", Gender.male, Skill.novice, 0, Status.playing⟩], [], [["a"]]⟩
        0 0 "b").readySets = [["b"]] ∧
    swapReadyWithPool
        ⟨[⟨"b", "B", Gender.male, Skill.novice, 0, Status.playing⟩], [], [["a"]]⟩
        0 0 "b"
      ≠ ⟨[⟨"b", "B", Gender.male, Skill.novice, 0, Status.playing⟩], [], [["a"]]⟩ := by
  decide

/-- C5 (amended): `swapReadyWithPool` declines exactly when no occupant
sits at `readyIndex` of set `setIndex` (undefined slot, or the empty-id
corner); when an occupant `out` is present it replaces only that slot
(group length preserved), leaves the other groups and the courts
untouched, and — without checking the incoming id's status or
existence — sets any player with id `out` to `pool` and then any player
with the incoming id to `ready`. -/
theorem swapReadyWithPool_spec (σ : AppState) (i j : Nat) (pid : String) :
    ((σ.readySets.getD i []).get? j = none → swapReadyWithPool σ i j pid = σ) ∧
    ((σ.readySets.getD i []).get? j = some "" → swapReadyWithPool σ i j pid = σ) ∧
    (∀ out, (σ.readySets.getD i []).get? j = some out → out ≠ "" →
      (swapReadyWithPool σ i j pid).readySets.get? i =
        some ((σ.readySets.getD i []).set j pid) ∧
      ((σ.readySets.getD i []).set j pid).length = (σ.readySets.getD i []).length ∧
      (∀ k, k ≠ i → (swapReadyWithPool σ i j pid).readySets.get? k = σ.readySets.get? k) ∧
      (∀ k p, σ.players.get? k = some p →
        (swapReadyWithPool σ i j pid).players.get? k =
          some (if p.id = pid then { p with status := Status.ready }
                else if p.id = out then { p with status := Status.pool } else p)) ∧
      (swapReadyWithPool σ i j pid).courts = σ.courts) := by
  refine ⟨?_, ?_, ?_⟩
  · intro h
    rw [swapReadyWithPool, h]
  · intro h
    rw [swapReadyWithPool, h]
    dsimp only
    rw [if_pos rfl]
  · intro out hout hne
    have hi : i < σ.readySets.length := by
      by_contra hni
      rw [List.getD_eq_getElem?_getD, List.getElem?_eq_none (by omega)] at hout
      simp at hout
    rw [swapReadyWithPool, hout]
    dsimp only
    rw [if_neg hne]
    refine ⟨?_, by rw [List.length_set], ?_, ?_, rfl⟩
    · rw [List.get?_eq_getElem?]
      exact List.getElem?_set_eq_of_lt _ hi
    · intro k hk
      rw [List.get?_eq_getElem?, List.get?_eq_getElem?]
      exact List.getElem?_set_ne (by omega)
    · intro k p hk
      rw [List.get?_eq_getElem?] at hk
      rw [List.get?_eq_getElem?, List.getElem?_map, List.getElem?_map, hk]
      simp only [Option.map_some', Option.some.injEq]
      by_cases hpo : p.id = out <;> by_cases hpp : p.id = pid <;>
        cases p <;> simp_all

/-- C5 witness: swapping slot 1 of group `[a, b, c]` with pool player
`d` replaces only that slot, returns `b` to `pool` and stages `d`. -/
theorem swapReadyWithPool_spec_witness :
    (swapReadyWithPool
        ⟨[⟨"b", "B", Gender.male, Skill.novice, 0, Status.ready⟩,
          ⟨"d", "D", Gender.male, Skill.novice, 0, Status.pool⟩], [],
         [["a", "b", "c"]]⟩ 0 1 "d").readySets.get? 0 = some ["a", "d", "c"] ∧
    (swapReadyWithPool
        ⟨[⟨"b", "B", Gender.male, Skill.novice, 0, Status.ready⟩,
          ⟨"d", "D", Gender.male, Skill.novice, 0, Status.pool⟩], [],
         [["a", "b", "c"]]⟩ 0 1 "d").players.get? 0
      = some ⟨"b", "B", Gender.male, Skill.novice, 0, Status.pool⟩ ∧
    (swapReadyWithPool
        ⟨[⟨"b", "B", Gender.male, Skill.novice, 0, Status.ready⟩,
          ⟨"d", "D", Gender.male, Skill.novice, 0, Status.pool⟩], [],
         [["a", "b", "c"]]⟩ 0 1 "d").players.get? 1
      = some ⟨"d", "D", Gender.male, Skill.novice, 0, Status.ready⟩ := by
  have h := (swapReadyWithPool_spec
    ⟨[⟨"b", "B", Gender.male, Skill.novice, 0, Status.ready⟩,
      ⟨"d", "D", Gender.male, Skill.novice, 0, Status.pool⟩], [],
     [["a", "b", "c"]]⟩ 0 1 "d").2.2 "b" rfl (by decide)
  refine ⟨by simpa using h.1, ?_, ?_⟩
  · have := h.2.2.2.1 0 ⟨"b", "B", Gender.male, Skill.novice, 0, Status.ready⟩ rfl
    simpa using this
  · have := h.2.2.2.1 1 ⟨"d", "D", Gender.male, Skill.novice, 0, Status.pool⟩ rfl
    simpa using this

/-! ## Claim C6: the FillAll selection-order policy -/

/-- Overwriting position `n` (which holds `x`) with `y` trades one
occurrence of `x` for one of `y` in the element counts. -/
theorem count_set_plus {α : Type} [DecidableEq α] {l : List α} {n : Nat} {x : α}
    (y a : α) (hx : l.get? n = some x) :
    (l.set n y).count a + (if x == a then 1 else 0)
      = l.count a + (if y == a then 1 else 0) := by
  have hn : n < l.length := by
    by_contra hc
    rw [List.get?_eq_getElem?, List.getElem?_eq_none (by omega)] at hx
    exact Option.noConfusion hx
  have hset : l.set n y = l.take n ++ y :: l.drop (n + 1) := by
    rw [List.set_eq_take_append_cons_drop, if_pos hn]
  have hdec : l = l.take n ++ x :: l.drop (n + 1) := getQ_decomp hx
  rw [hset]
  conv_rhs => rw [hdec]
  simp only [List.count_append, List.count_cons]
  omega

/-- Each Fisher-Yates swap step preserves the multiset of elements. -/
theorem swapIdx_perm {α : Type} [DecidableEq α] (l : List α) (i j : Nat) :
    (swapIdx l i j).Perm l := by
  rw [swapIdx]
  cases hx : l.get? i with
  | none =>
    cases l.get? j <;> exact List.Perm.refl l
  | some x =>
    cases hy : l.get? j with
    | none => exact List.Perm.refl l
    | some y =>
      show ((l.set i y).set j x).Perm l
      have hyset : (l.set i y).get? j = some y := by
        by_cases hij : i = j
        · subst hij
          have hn : i < l.length := by
            by_contra hc
            rw [List.get?_eq_getElem?, List.getElem?_eq_none (by omega)] at hx
            exact Option.noConfusion hx
          rw [List.get?_eq_getElem?]
          exact List.getElem?_set_eq_of_lt _ hn
        · rw [List.get?_eq_getElem?, List.getElem?_set_ne (by omega),
            ← List.get?_eq_getElem?]
          exact hy
      rw [List.perm_iff_count]
      intro a
      have h1 := count_set_plus y a hx
      have h2 := count_set_plus x a hyset
      omega

/-- The Fisher-Yates loop is a permutation. -/
theorem fyGo_perm {α : Type} [DecidableEq α] (rand : List Nat) (i : Nat) (a : List α) :
    (fyGo rand i a).Perm a := by
  induction i generalizing rand a with
  | zero => exact List.Perm.refl a
  | succ k ih =>
    rw [fyGo]
    exact (ih rand.tail _).trans (swapIdx_perm a (k + 1) _)

/-- `shuffleArr` is a permutation of its input. -/
theorem shuffleArr_perm {α : Type} [DecidableEq α] (rand : List Nat) (arr : List α) :
    (shuffleArr rand arr).Perm arr :=
  fyGo_perm rand (arr.length - 1) arr

/-- C6: the selection queue is always a permutation of the pool; when
some participant anywhere in the system has a positive session counter
the queue is sorted ascending by counter, ties by skill tier then name
(`playerBefore`); when nobody has (`anyMatches = false`) it is the
explicit shuffle of the pool.  On the spec's [2,0,1,0] example the two
counter-0 participants come first, then the counter-1, then the
counter-2 one. -/
theorem selectionQueue_policy (ps : List Player) (rand : List Nat) :
    (selectionQueue ps rand).Perm (poolOf ps) ∧
    (anyMatches ps = true → (selectionQueue ps rand).Sorted playerBefore) ∧
    (anyMatches ps = false → selectionQueue ps rand = shuffleArr rand (poolOf ps)) ∧
    (selectionQueue exFairness []).map Player.id = ["b1", "d1", "c1", "a1"] := by
  refine ⟨?_, ?_, ?_, ?_⟩
  · rw [selectionQueue]
    by_cases h : anyMatches ps
    · rw [if_pos h]
      exact List.perm_insertionSort playerBefore (poolOf ps)
    · rw [if_neg h]
      exact shuffleArr_perm rand (poolOf ps)
  · intro h
    rw [selectionQueue, if_pos h]
    exact List.sorted_insertionSort playerBefore (poolOf ps)
  · intro h
    rw [selectionQueue, if_neg (by simp [h])]
  · decide

/-- C6 witness: on the [2,0,1,0] example (which has a positive counter)
the queue is sorted under the comparator's order. -/
theorem selectionQueue_policy_witness :
    (selectionQueue exFairness []).Sorted playerBefore :=
  (selectionQueue_policy exFairness []).2.1 (by decide)

/-! ## Claim C7: FillAll distribution -/

/-- Closed form of the single-group fill loop: it moves the first
`cap - g.length` queue entries (clamped to the queue) to the end of the
group. -/
theorem fillGroup_eq (q : List String) (g : List String) (cap : Nat) :
    fillGroup g q cap =
      (g ++ q.take (cap - g.length), q.drop (cap - g.length), q.take (cap - g.length)) := by
  induction q generalizing g with
  | nil => simp [fillGroup]
  | cons x xs ih =>
    rw [fillGroup]
    by_cases h : g.length < cap
    · rw [if_pos h, ih (g ++ [x])]
      have hsub : cap - g.length = (cap - (g ++ [x]).length) + 1 := by
        simp only [List.length_append, List.length_cons, List.length_nil]
        omega
      rw [hsub, List.take_succ_cons, List.drop_succ_cons]
      simp
    · rw [if_neg h]
      have hz : cap - g.length = 0 := by omega
      rw [hz]
      simp

/-- `distAux` keeps the number of groups. -/
theorem distAux_length (sets : List (List String)) (q : List String) (cap : Nat) :
    (distAux sets q cap).1.length = sets.length := by
  induction sets generalizing q with
  | nil => rfl
  | cons g gs ih => simp [distAux, ih]

/-- With an empty queue, `distAux` returns everything unchanged. -/
theorem distAux_nilq (sets : List (List String)) (cap : Nat) :
    distAux sets [] cap = (sets, [], []) := by
  induction sets with
  | nil => rfl
  | cons g gs ih => simp [distAux, fillGroup, ih]

/-- Each group only grows: the result at index `i` is the original group
with some ids appended, and ids are only appended to groups that had
space. -/
theorem distAux_get_append {sets : List (List String)} (q : List String) {cap : Nat}
    {i : Nat} {g : List String} (hg : sets.get? i = some g) :
    ∃ t, (distAux sets q cap).1.get? i = some (g ++ t) ∧ (t ≠ [] → g.length < cap) := by
  induction sets generalizing q i with
  | nil => exact absurd hg (by simp)
  | cons g0 gs ih =>
    cases i with
    | zero =>
      have hg0 : g0 = g := by simpa using hg
      subst hg0
      refine ⟨q.take (cap - g0.length), ?_, ?_⟩
      · simp [distAux, fillGroup_eq]
      · intro ht
        rcases (not_or.mp (fun h => ht (List.take_eq_nil_iff.mpr h))) with ⟨h1, -⟩
        omega
    | succ i' =>
      have hg' : gs.get? i' = some g := by simpa using hg
      obtain ⟨t, h1, h2⟩ := ih ((fillGroup g0 q cap).2.1) hg'
      exact ⟨t, by simpa [distAux] using h1, h2⟩

/-- The consumed ids form a prefix of the queue, taken in order. -/
theorem distAux_used_take (sets : List (List String)) (q : List String) (cap : Nat) :
    ∃ k, (distAux sets q cap).2.2 = q.take k := by
  induction sets generalizing q with
  | nil => exact ⟨0, rfl⟩
  | cons g gs ih =>
    obtain ⟨k', hk'⟩ := ih (q.drop (cap - g.length))
    refine ⟨(cap - g.length) + k', ?_⟩
    simp only [distAux, fillGroup_eq]
    rw [hk', List.take_add]

/-- First-group-first: if some result group still has space, the queue
was exhausted there, so every later group is untouched. -/
theorem distAux_later_unchanged {sets : List (List String)} {q : List String} {cap : Nat}
    {i : Nat} {g' : List String}
    (hi : (distAux sets q cap).1.get? i = some g') (hlen : g'.length < cap) :
    ∀ j, i < j → (distAux sets q cap).1.get? j = sets.get? j := by
  induction sets generalizing q i with
  | nil => exact absurd hi (by simp [distAux])
  | cons g0 gs ih =>
    cases i with
    | zero =>
      have hg' : g' = g0 ++ q.take (cap - g0.length) := by
        have : (distAux (g0 :: gs) q cap).1.get? 0
            = some (g0 ++ q.take (cap - g0.length)) := by
          simp [distAux, fillGroup_eq]
        rw [this] at hi
        exact (Option.some.inj hi).symm
      have hqnil : q.drop (cap - g0.length) = [] := by
        apply List.drop_eq_nil_of_le
        have hlg : g'.length = g0.length + ((cap - g0.length) ⊓ q.length) := by
          rw [hg', List.length_append, List.length_take]
        by_cases hcap : g0.length < cap
        · omega
        · exfalso
          have : cap - g0.length = 0 := by omega
          omega
      intro j hj
      cases j with
      | zero => omega
      | succ j' =>
        have : (distAux (g0 :: gs) q cap).1.get? (j' + 1)
            = (distAux gs (q.drop (cap - g0.length)) cap).1.get? j' := by
          simp [distAux, fillGroup_eq]
        rw [this, hqnil, distAux_nilq]
        simp
    | succ i' =>
      intro j hj
      cases j with
      | zero => omega
      | succ j' =>
        have hi' : (distAux gs (fillGroup g0 q cap).2.1 cap).1.get? i' = some g' := by
          simpa [distAux] using hi
        have := ih hi' j' (by omega)
        simpa [distAux] using this

/-- Nothing is consumed exactly when the queue is empty or no group has
space. -/
theorem distAux_used_nil_iff (sets : List (List String)) (q : List String) (cap : Nat) :
    (distAux sets q cap).2.2 = [] ↔ (q = [] ∨ ∀ g ∈ sets, ¬ g.length < cap) := by
  induction sets generalizing q with
  | nil => simp [distAux]
  | cons g0 gs ih =>
    constructor
    · intro h
      simp only [distAux, fillGroup_eq] at h
      rw [List.append_eq_nil] at h
      obtain ⟨h1, h2⟩ := h
      rcases List.take_eq_nil_iff.mp h1 with hcap | hq
      · have hfull : ¬ g0.length < cap := by omega
        have hq' : q.drop (cap - g0.length) = q := by rw [hcap]; rfl
        rw [hq'] at h2
        rcases (ih q).mp h2 with hqq | hall
        · exact Or.inl hqq
        · refine Or.inr ?_
          intro g hg
          rcases List.mem_cons.mp hg with rfl | hgs
          · exact hfull
          · exact hall g hgs
      · exact Or.inl hq
    · intro h
      rcases h with hq | hall
      · subst hq
        rw [distAux_nilq]
      · have hfull0 : ¬ g0.length < cap := hall g0 (List.mem_cons_self g0 gs)
        have hcap : cap - g0.length = 0 := by omega
        simp only [distAux, fillGroup_eq, hcap, List.take_zero, List.drop_zero,
          List.nil_append]
        exact (ih q).mpr (Or.inr fun g hg => hall g (List.mem_cons_of_mem g0 hg))

/-- The selection queue permutes the pool (shared helper). -/
theorem selectionQueue_perm (ps : List Player) (rand : List Nat) :
    (selectionQueue ps rand).Perm (poolOf ps) := by
  rw [selectionQueue]
  by_cases h : anyMatches ps
  · rw [if_pos h]
    exact List.perm_insertionSort playerBefore (poolOf ps)
  · rw [if_neg h]
    exact shuffleArr_perm rand (poolOf ps)

/-- When nothing is consumed, `fillAllSets` declines (both setters are
skipped). -/
theorem fillAllSets_nil {σ : AppState} {rand : List Nat}
    (h : usedOf σ rand = []) : fillAllSets σ rand = σ := by
  have h' : (distributeFill σ.readySets
      ((selectionQueue σ.players rand).map (·.id)) 4).2 = [] := h
  simp only [fillAllSets]
  rw [if_pos (List.isEmpty_iff.mpr h')]

/-- When ids are consumed, `fillAllSets` installs the distributed sets
and stages the consumed ids. -/
theorem fillAllSets_cons {σ : AppState} {rand : List Nat}
    (h : usedOf σ rand ≠ []) :
    fillAllSets σ rand =
      { σ with
        readySets :=
          (distributeFill σ.readySets ((selectionQueue σ.players rand).map (·.id)) 4).1,
        players := σ.players.map fun p =>
          if decide (p.id ∈ usedOf σ rand) then { p with status := Status.ready }
          else p } := by
  have h' : (distributeFill σ.readySets
      ((selectionQueue σ.players rand).map (·.id)) 4).2 ≠ [] := h
  simp only [fillAllSets]
  rw [if_neg (fun hc => h' (List.isEmpty_iff.mp hc))]
  rfl

/-- On a non-empty set list, `distributeFill` never pushes the extra
empty set. -/
theorem distributeFill_fst_of_ne {sets : List (List String)} {q : List String}
    (hne : sets ≠ []) : (distributeFill sets q 4).1 = (distAux sets q 4).1 := by
  simp only [distributeFill]
  rw [if_neg]
  intro hc
  rw [List.isEmpty_iff] at hc
  have hl := distAux_length sets q 4
  rw [hc] at hl
  exact hne (List.length_eq_zero.mp hl.symm)

/-- If anything was consumed, the state had at least one set. -/
theorem sets_ne_of_used_ne {σ : AppState} {rand : List Nat}
    (h : usedOf σ rand ≠ []) : σ.readySets ≠ [] := by
  intro hc
  apply h
  show (distributeFill σ.readySets ((selectionQueue σ.players rand).map (·.id)) 4).2 = []
  rw [hc]
  rfl

/-- C7: `fillAllSets` never creates or removes groups; every group only
grows (existing occupants keep their slots, ids are appended only to
groups that had space); if a result group is still below 4 every later
group is untouched (first-group-first, one pass); with an empty pool or
no capacity the whole call declines; every consumed id's player becomes
`ready` and non-consumed players are untouched; courts are untouched;
and the consumed ids are a prefix of the selection queue. -/
theorem fillAllSets_spec (σ : AppState) (rand : List Nat) :
    (fillAllSets σ rand).readySets.length = σ.readySets.length ∧
    (∀ i g, σ.readySets.get? i = some g →
      ∃ t, (fillAllSets σ rand).readySets.get? i = some (g ++ t) ∧
        (t ≠ [] → g.length < 4)) ∧
    (∀ i j g', i < j → (fillAllSets σ rand).readySets.get? i = some g' →
      g'.length < 4 →
      (fillAllSets σ rand).readySets.get? j = σ.readySets.get? j) ∧
    ((poolOf σ.players = [] ∨ ∀ g ∈ σ.readySets, ¬ g.length < 4) →
      fillAllSets σ rand = σ) ∧
    (∀ k p, σ.players.get? k = some p →
      (fillAllSets σ rand).players.get? k =
        some (if p.id ∈ usedOf σ rand then { p with status := Status.ready } else p)) ∧
    (fillAllSets σ rand).courts = σ.courts ∧
    (∃ k, usedOf σ rand = ((selectionQueue σ.players rand).map (·.id)).take k) := by
  by_cases hu : usedOf σ rand = []
  · have hσ := fillAllSets_nil hu
    refine ⟨by rw [hσ], ?_, ?_, fun _ => hσ, ?_, by rw [hσ], ⟨0, by rw [hu]; rfl⟩⟩
    · intro i g hg
      exact ⟨[], by rw [hσ, List.append_nil]; exact hg, fun hc => absurd rfl hc⟩
    · intro i j g' hij h1 h2
      rw [hσ]
    · intro k p hk
      rw [hσ, hk, hu]
      simp
  · have hsne := sets_ne_of_used_ne hu
    have hfill := fillAllSets_cons hu
    have hsets' : (fillAllSets σ rand).readySets
        = (distAux σ.readySets ((selectionQueue σ.players rand).map (·.id)) 4).1 := by
      rw [hfill]
      exact distributeFill_fst_of_ne hsne
    refine ⟨?_, ?_, ?_, ?_, ?_, ?_, ?_⟩
    · rw [hsets', distAux_length]
    · intro i g hg
      obtain ⟨t, h1, h2⟩ :=
        @distAux_get_append σ.readySets ((selectionQueue σ.players rand).map (·.id)) 4 i g hg
      exact ⟨t, by rw [hsets']; exact h1, h2⟩
    · intro i j g' hij h1 h2
      rw [hsets'] at h1 ⊢
      exact distAux_later_unchanged h1 h2 j hij
    · intro h
      exfalso
      apply hu
      show (distAux σ.readySets ((selectionQueue σ.players rand).map (·.id)) 4).2.2 = []
      rcases h with hpool | hfull
      · have hperm := selectionQueue_perm σ.players rand
        rw [hpool] at hperm
        have hq : selectionQueue σ.players rand = [] := List.perm_nil.mp hperm
        rw [hq]
        rw [show (([] : List Player).map (·.id)) = ([] : List String) from rfl,
          distAux_nilq]
      · exact (distAux_used_nil_iff _ _ _).mpr (Or.inr hfull)
    · intro k p hk
      rw [hfill]
      show (List.map _ σ.players).get? k = _
      rw [List.get?_eq_getElem?, List.getElem?_map]
      rw [List.get?_eq_getElem?] at hk
      rw [hk]
      simp only [Option.map_some', Option.some.injEq]
      by_cases hp : p.id ∈ usedOf σ rand
      · rw [if_pos (by simpa using hp), if_pos hp]
      · rw [if_neg (by simpa using hp), if_neg hp]
    · rw [hfill]
    · rw [show usedOf σ rand
          = (distAux σ.readySets ((selectionQueue σ.players rand).map (·.id)) 4).2.2 from rfl]
      exact distAux_used_take _ _ _

/-- C7 witness: with one `ready` (hence empty-pool) player the call is a
no-op, and with one `pool` player and sets `[[a,b,c],[]]` the number of
groups stays 2. -/
theorem fillAllSets_spec_witness :
    fillAllSets ⟨[⟨"a", "A", Gender.male, Skill.novice, 0, Status.ready⟩], [], [["a"]]⟩ []
      = ⟨[⟨"a", "A", Gender.male, Skill.novice, 0, Status.ready⟩], [], [["a"]]⟩ ∧
    (fillAllSets ⟨[⟨"x", "X", Gender.male, Skill.novice, 1, Status.pool⟩], [],
        [["a", "b", "c"], []]⟩ []).readySets.length = 2 := by
  constructor
  · exact (fillAllSets_spec
      ⟨[⟨"a", "A", Gender.male, Skill.novice, 0, Status.ready⟩], [], [["a"]]⟩ []).2.2.2.1
      (Or.inl (by decide))
  · exact ((fillAllSets_spec
      ⟨[⟨"x", "X", Gender.male, Skill.novice, 1, Status.pool⟩], [],
        [["a", "b", "c"], []]⟩ []).1).trans (by decide)

/-! ## Engine step relations and reachability -/

/-- C2 counterexample to the claim as stated: deleting a participant who
occupies a station is an engine operation reaching a state whose station
holds exactly 3 occupants — a partial occupancy. -/
theorem partial_station_counterexample :
    ∃ σ : AppState, ReachA σ ∧ ∃ c ∈ σ.courts, c.playingIds.length = 3 := by
  refine ⟨deletePlayer (assignSetToCourt (addToReady (addToReady (addToReady (addToReady
    (confirmAddPlayer (confirmAddPlayer (confirmAddPlayer (confirmAddPlayer
      (addCourt initState "c1")
      "p1" "P1" Gender.male Skill.novice)
      "p2" "P2" Gender.male Skill.novice)
      "p3" "P3" Gender.male Skill.novice)
      "p4" "P4" Gender.male Skill.novice)
      "p1") "p2") "p3") "p4") 0 "c1" 0) "p1", ?_, ?_⟩
  · exact ReachA.step (ReachA.step (ReachA.step (ReachA.step (ReachA.step (ReachA.step
      (ReachA.step (ReachA.step (ReachA.step (ReachA.step (ReachA.step ReachA.init
        (StepA.newCourt _ "c1"))
        (StepA.addP _ "p1" "P1" Gender.male Skill.novice))
        (StepA.addP _ "p2" "P2" Gender.male Skill.novice))
        (StepA.addP _ "p3" "P3" Gender.male Skill.novice))
        (StepA.addP _ "p4" "P4" Gender.male Skill.novice))
        (StepA.promote _ "p1"))
        (StepA.promote _ "p2"))
        (StepA.promote _ "p3"))
        (StepA.promote _ "p4"))
        (StepA.assign _ 0 "c1" 0))
        (StepA.delP _ "p1")
  · decide

/-- C3 counterexample to the claim as stated: assigning a full group to
a station id that does not exist is an engine operation; it marks the
four participants `playing` although no station's occupancy contains
them. -/
theorem playing_without_station_counterexample :
    ∃ σ : AppState, ReachA σ ∧ ∃ p ∈ σ.players,
      p.status = Status.playing ∧
      σ.courts.countP (fun c => decide (p.id ∈ c.playingIds)) = 0 := by
  refine ⟨assignSetToCourt (addToReady (addToReady (addToReady (addToReady
    (confirmAddPlayer (confirmAddPlayer (confirmAddPlayer (confirmAddPlayer
      initState
      "p1" "P1" Gender.male Skill.novice)
      "p2" "P2" Gender.male Skill.novice)
      "p3" "P3" Gender.male Skill.novice)
      "p4" "P4" Gender.male Skill.novice)
      "p1") "p2") "p3") "p4") 0 "ghost" 0, ?_, ?_⟩
  · exact ReachA.step (ReachA.step (ReachA.step (ReachA.step (ReachA.step (ReachA.step
      (ReachA.step (ReachA.step (ReachA.step ReachA.init
        (StepA.addP _ "p1" "P1" Gender.male Skill.novice))
        (StepA.addP _ "p2" "P2" Gender.male Skill.novice))
        (StepA.addP _ "p3" "P3" Gender.male Skill.novice))
        (StepA.addP _ "p4" "P4" Gender.male Skill.novice))
        (StepA.promote _ "p1"))
        (StepA.promote _ "p2"))
        (StepA.promote _ "p3"))
        (StepA.promote _ "p4"))
        (StepA.assign _ 0 "ghost" 0)
  · decide

/-! ## Claim C2: station occupancy invariant -/

theorem confirmAddPlayer_courts (σ : AppState) (id name : String) (g : Gender)
    (sk : Skill) : (confirmAddPlayer σ id name g sk).courts = σ.courts := by
  rw [confirmAddPlayer]
  split <;> rfl

theorem addToReady_courts (σ : AppState) (id : String) :
    (addToReady σ id).courts = σ.courts := by
  rw [addToReady]
  split <;> rfl

theorem swapReadyWithPool_courts (σ : AppState) (i j : Nat) (pid : String) :
    (swapReadyWithPool σ i j pid).courts = σ.courts := by
  rw [swapReadyWithPool]
  split
  · rfl
  · split <;> rfl

theorem fillAllSets_courts (σ : AppState) (rand : List Nat) :
    (fillAllSets σ rand).courts = σ.courts := by
  by_cases hu : usedOf σ rand = []
  · rw [fillAllSets_nil hu]
  · rw [fillAllSets_cons hu]

theorem removeSet_courts (σ : AppState) (i : Nat) :
    (removeSet σ i).courts = σ.courts := rfl

theorem createSet_courts (σ : AppState) : (createSet σ).courts = σ.courts := rfl

theorem sanitizeSets_courts (σ : AppState) : (sanitizeSets σ).courts = σ.courts := rfl

theorem courtsOk_addCourt {σ : AppState} (h : CourtsOk σ) (cid : String) :
    CourtsOk (addCourt σ cid) := by
  intro c hc
  rcases List.mem_append.mp hc with hm | hm
  · exact h c hm
  · rcases List.mem_singleton.mp hm with rfl
    exact Or.inl rfl

theorem courtsOk_removeCourt {σ : AppState} (h : CourtsOk σ) (cid : String) :
    CourtsOk (removeCourt σ cid) := by
  intro c hc
  exact h c (List.mem_of_mem_filter hc)

theorem courtsOk_assign {σ : AppState} (h : CourtsOk σ) (i : Nat) (cid : String)
    (now : Nat) : CourtsOk (assignSetToCourt σ i cid now) := by
  rw [assignSetToCourt]
  split
  · intro c hc
    rcases List.mem_map.mp hc with ⟨c0, hc0, rfl⟩
    split
    · right
      assumption
    · exact h c0 hc0
  · exact h

theorem courtsOk_endMatch {σ : AppState} (h : CourtsOk σ) (cid : String) :
    CourtsOk (endMatch σ cid) := by
  rw [endMatch]
  split
  · exact h
  · intro c hc
    rcases List.mem_map.mp hc with ⟨c0, hc0, rfl⟩
    split
    · exact Or.inl rfl
    · exact h c0 hc0

theorem courtsOk_deletePlayer {σ : AppState} (h : CourtsOk σ) {id : String}
    (hid : ∀ c ∈ σ.courts, id ∉ c.playingIds) : CourtsOk (deletePlayer σ id) := by
  intro c hc
  rcases List.mem_map.mp hc with ⟨c0, hc0, rfl⟩
  rw [if_neg (by simpa using hid c0 hc0)]
  exact h c0 hc0

/-- C2 (amended): along every operation sequence in which
`DeleteParticipant` is only applied to participants not occupying a
station, every station's occupancy has length 0 or 4.  (Deleting a
station occupant breaks this: see the counterexample.) -/
theorem station_occupancy_invariant (σ : AppState) (h : ReachD σ) : CourtsOk σ := by
  induction h with
  | init =>
    intro c hc
    simp [initState] at hc
  | step hr hs ih =>
    cases hs with
    | addP id name g sk =>
      intro c hc
      rw [confirmAddPlayer_courts] at hc
      exact ih c hc
    | delP id hguard => exact courtsOk_deletePlayer ih hguard
    | promote id =>
      intro c hc
      rw [addToReady_courts] at hc
      exact ih c hc
    | swapP i j pid =>
      intro c hc
      rw [swapReadyWithPool_courts] at hc
      exact ih c hc
    | fill rand =>
      intro c hc
      rw [fillAllSets_courts] at hc
      exact ih c hc
    | newCourt cid => exact courtsOk_addCourt ih cid
    | delCourt cid => exact courtsOk_removeCourt ih cid
    | assign i cid now => exact courtsOk_assign ih i cid now
    | delSet i =>
      intro c hc
      rw [removeSet_courts] at hc
      exact ih c hc
    | endS cid => exact courtsOk_endMatch ih cid
    | newSet =>
      intro c hc
      rw [createSet_courts] at hc
      exact ih c hc
    | sanitize =>
      intro c hc
      rw [sanitizeSets_courts] at hc
      exact ih c hc

/-- C2 witness: the invariant instantiated on a concrete reachable
state whose only court is fully occupied. -/
theorem station_occupancy_invariant_witness :
    (⟨"c1", "Court 1", ["p1", "p2", "p3", "p4"], some 0⟩ : Court).playingIds.length = 0 ∨
    (⟨"c1", "Court 1", ["p1", "p2", "p3", "p4"], some 0⟩ : Court).playingIds.length = 4 := by
  refine station_occupancy_invariant
    (assignSetToCourt (addToReady (addToReady (addToReady (addToReady
      (confirmAddPlayer (confirmAddPlayer (confirmAddPlayer (confirmAddPlayer
        (addCourt initState "c1")
        "p1" "P1" Gender.male Skill.novice)
        "p2" "P2" Gender.male Skill.novice)
        "p3" "P3" Gender.male Skill.novice)
        "p4" "P4" Gender.male Skill.novice)
        "p1") "p2") "p3") "p4") 0 "c1" 0)
    (ReachD.step (ReachD.step (ReachD.step (ReachD.step (ReachD.step (ReachD.step
      (ReachD.step (ReachD.step (ReachD.step (ReachD.step ReachD.init
        (StepD.newCourt _ "c1"))
        (StepD.addP _ "p1" "P1" Gender.male Skill.novice))
        (StepD.addP _ "p2" "P2" Gender.male Skill.novice))
        (StepD.addP _ "p3" "P3" Gender.male Skill.novice))
        (StepD.addP _ "p4" "P4" Gender.male Skill.novice))
        (StepD.promote _ "p1"))
        (StepD.promote _ "p2"))
        (StepD.promote _ "p3"))
        (StepD.promote _ "p4"))
        (StepD.assign _ 0 "c1" 0))
    _ (by decide)

/-! ## Claim C3: status consistency -/

/-! ### Counting toolkit -/

/-- Overwriting the group at a valid index trades its contribution for
the new group's contribution. -/
theorem flatten_count_set {L : List (List String)} {t : Nat} {g : List String}
    (g' : List String) (x : String) (hg : L.get? t = some g) :
    ((L.set t g').flatten).count x + g.count x = L.flatten.count x + g'.count x := by
  have hn : t < L.length := by
    by_contra hc
    rw [List.get?_eq_getElem?, List.getElem?_eq_none (by omega)] at hg
    exact Option.noConfusion hg
  have hs : L.set t g' = L.take t ++ g' :: L.drop (t + 1) := by
    rw [List.set_eq_take_append_cons_drop, if_pos hn]
  have hd : L = L.take t ++ g :: L.drop (t + 1) := getQ_decomp hg
  rw [hs]
  conv_rhs => rw [hd]
  simp only [List.flatten_append, List.flatten_cons, List.count_append]
  omega

/-- Erasing the group at a valid index removes exactly its
contribution. -/
theorem flatten_count_erase {L : List (List String)} {t : Nat} {g : List String}
    (x : String) (hg : L.get? t = some g) :
    ((L.eraseIdx t).flatten).count x + g.count x = L.flatten.count x := by
  have hd : L = L.take t ++ g :: L.drop (t + 1) := getQ_decomp hg
  rw [List.eraseIdx_eq_take_drop_succ]
  conv_rhs => rw [hd]
  simp only [List.flatten_append, List.flatten_cons, List.count_append]
  omega

/-- Appending one group adds exactly its contribution. -/
theorem flatten_count_snoc (L : List (List String)) (g : List String) (x : String) :
    ((L ++ [g]).flatten).count x = L.flatten.count x + g.count x := by
  simp [List.flatten_append, List.count_append]

/-- A group's contribution is bounded by the total. -/
theorem count_le_flatten {L : List (List String)} {t : Nat} {g : List String}
    (x : String) (hg : L.get? t = some g) : g.count x ≤ L.flatten.count x := by
  have hd : L = L.take t ++ g :: L.drop (t + 1) := getQ_decomp hg
  conv_rhs => rw [hd]
  simp only [List.flatten_append, List.flatten_cons, List.count_append]
  omega

/-- Filtering every group with a predicate that keeps `x` does not
change the count of `x`. -/
theorem flatten_count_filter_keep {p : String → Bool} {x : String}
    (hp : p x = true) (L : List (List String)) :
    ((L.map fun s => s.filter p).flatten).count x = L.flatten.count x := by
  induction L with
  | nil => rfl
  | cons g gs ih =>
    simp only [List.map_cons, List.flatten_cons, List.count_append, ih,
      List.count_filter, hp]

/-- Filtering every group with a predicate that drops `x` removes all
its occurrences. -/
theorem flatten_count_filter_drop {p : String → Bool} {x : String}
    (hp : p x = false) (L : List (List String)) :
    ((L.map fun s => s.filter p).flatten).count x = 0 := by
  induction L with
  | nil => rfl
  | cons g gs ih =>
    simp only [List.map_cons, List.flatten_cons, List.count_append, ih]
    have hz : List.count x (List.filter p g) = 0 := by
      rw [List.count_eq_zero]
      intro hmem
      have h2 := (List.mem_filter.mp hmem).2
      rw [hp] at h2
      exact Bool.noConfusion h2
    omega

/-- Total court-occupancy count over an explicit decomposition. -/
theorem courts_count_append (C1 C2 : List Court) (c : Court) (x : String) :
    (((C1 ++ c :: C2).map Court.playingIds).flatten).count x
      = ((C1.map Court.playingIds).flatten).count x + c.playingIds.count x
        + ((C2.map Court.playingIds).flatten).count x := by
  simp only [List.map_append, List.map_cons, List.flatten_append, List.flatten_cons,
    List.count_append]
  omega

/-- Decompose a court list around a member with a unique id. -/
theorem court_decomp {cs : List Court} (hnd : (cs.map Court.id).Nodup) {c : Court}
    (hc : c ∈ cs) :
    ∃ C1 C2, cs = C1 ++ c :: C2 ∧ (∀ c' ∈ C1, c'.id ≠ c.id) ∧
      (∀ c' ∈ C2, c'.id ≠ c.id) := by
  obtain ⟨C1, C2, rfl⟩ := List.append_of_mem hc
  refine ⟨C1, C2, rfl, ?_, ?_⟩
  · intro c' hc' he
    rw [List.map_append, List.nodup_append] at hnd
    exact hnd.2.2 (List.mem_map_of_mem Court.id hc')
      (by rw [List.map_cons, he]; exact List.mem_cons_self _ _)
  · intro c' hc' he
    rw [List.map_append, List.map_cons, List.nodup_append] at hnd
    exact (List.nodup_cons.mp hnd.2.1).1 (he ▸ List.mem_map_of_mem Court.id hc')

/-- `statusOk` only looks at the occurrence counts of the player's id. -/
theorem statusOk_of_eq {σ σ' : AppState} {p : Player}
    (hg : gOcc σ' p.id = gOcc σ p.id) (hc : cOcc σ' p.id = cOcc σ p.id)
    (h : statusOk σ p) : statusOk σ' p := by
  obtain ⟨id, name, g, sk, m, st⟩ := p
  cases st <;> simp_all [statusOk]

/-- Status-only record updates keep the id projection of a player list. -/
theorem players_map_id {ps : List Player} {f : Player → Player}
    (hf : ∀ p, (f p).id = p.id) :
    (ps.map f).map Player.id = ps.map Player.id := by
  rw [List.map_map]
  exact List.map_congr_left fun a _ => hf a

/-- Creating a new (empty) group preserves the invariant. -/
theorem SInv_createSet {σ : AppState} (h : SInv σ) : SInv (createSet σ) := by
  obtain ⟨h1, h2, h3, h4⟩ := h
  have hg : ∀ x, gOcc (createSet σ) x = gOcc σ x := fun x => by
    show ((σ.readySets ++ [[]]).flatten).count x = _
    rw [flatten_count_snoc]
    rfl
  refine ⟨h1, h2, ?_, ?_⟩
  · intro x hx
    rw [hg x] at hx
    exact h3 x hx
  · intro p hp
    exact statusOk_of_eq (hg p.id) rfl (h4 p hp)

/-- The sanitize pass preserves the invariant. -/
theorem SInv_sanitize {σ : AppState} (h : SInv σ) : SInv (sanitizeSets σ) := by
  obtain ⟨h1, h2, h3, h4⟩ := h
  have hkeep : ∀ x, x ∈ σ.players.map Player.id → gOcc (sanitizeSets σ) x = gOcc σ x := by
    intro x hx
    have hpx : (σ.players.any fun p => decide (p.id = x)) = true := by
      rw [List.any_eq_true]
      rcases List.mem_map.mp hx with ⟨p, hp, rfl⟩
      exact ⟨p, hp, by simp⟩
    show ((σ.readySets.map fun s =>
      s.filter fun id => σ.players.any fun p => decide (p.id = id)).flatten).count x = _
    rw [flatten_count_filter_keep hpx]
    rfl
  refine ⟨h1, h2, ?_, ?_⟩
  · intro x hx
    by_cases hmem : x ∈ σ.players.map Player.id
    · exact hmem
    · exfalso
      have hdrop : gOcc (sanitizeSets σ) x = 0 := by
        show ((σ.readySets.map fun s =>
          s.filter fun id => σ.players.any fun p => decide (p.id = id)).flatten).count x = 0
        apply flatten_count_filter_drop
        rw [Bool.eq_false_iff]
        intro hany
        rcases List.any_eq_true.mp hany with ⟨p, hp, hpid⟩
        exact hmem (List.mem_map.mpr ⟨p, hp, by simpa using hpid⟩)
      have hc : cOcc σ x ≠ 0 := by
        have : cOcc (sanitizeSets σ) x = cOcc σ x := rfl
        omega
      exact hmem (h3 x (by omega))
  · intro p hp
    exact statusOk_of_eq (hkeep p.id (List.mem_map_of_mem Player.id hp)) rfl (h4 p hp)

/-- Adding a fresh participant preserves the invariant. -/
theorem SInv_confirmAddPlayer {σ : AppState} (h : SInv σ) {id : String}
    (name : String) (g : Gender) (sk : Skill)
    (hid : id ∉ σ.players.map Player.id) :
    SInv (confirmAddPlayer σ id name g sk) := by
  obtain ⟨h1, h2, h3, h4⟩ := h
  by_cases hname : name = ""
  · rw [confirmAddPlayer, if_pos hname]
    exact ⟨h1, h2, h3, h4⟩
  · rw [confirmAddPlayer, if_neg hname]
    refine ⟨List.nodup_cons.mpr ⟨hid, h1⟩, h2, ?_, ?_⟩
    · intro x hx
      have := h3 x hx
      exact List.mem_cons_of_mem _ this
    · intro p hp
      rcases List.mem_cons.mp hp with rfl | hp'
    
      · show statusOk _ (⟨id, name, g, sk, 0, Status.pool⟩ : Player)
        have hz : gOcc σ id + cOcc σ id = 0 := by
          by_contra hnz
          exact hid (h3 id hnz)
        exact ⟨by show gOcc σ id = 0; omega, by show cOcc σ id = 0; omega⟩
      · exact h4 p hp'

/-- Adding a station with a fresh id preserves the invariant. -/
theorem SInv_addCourt {σ : AppState} (h : SInv σ) {cid : String}
    (hid : cid ∉ σ.courts.map Court.id) : SInv (addCourt σ cid) := by
  obtain ⟨h1, h2, h3, h4⟩ := h
  have hc : ∀ x, cOcc (addCourt σ cid) x = cOcc σ x := fun x => by
    show (((σ.courts ++ [_]).map Court.playingIds).flatten).count x = _
    rw [List.map_append, List.flatten_append, List.count_append]
    simp [cOcc]
  have hcourts : (addCourt σ cid).courts
      = σ.courts ++ [⟨cid, "Court " ++ toString (σ.courts.length + 1), [], none⟩] := rfl
  refine ⟨h1, ?_, ?_, ?_⟩
  · rw [hcourts, List.map_append, List.nodup_append]
    refine ⟨h2, List.nodup_singleton _, ?_⟩
    intro a ha hb
    rw [List.map_singleton, List.mem_singleton] at hb
    subst hb
    exact hid ha
  · intro x hx
    rw [hc x] at hx
    exact h3 x hx
  · intro p hp
    exact statusOk_of_eq
      (show gOcc (addCourt σ cid) p.id = gOcc σ p.id from rfl) (hc p.id) (h4 p hp)

/-- Promotion of an existing `pool` participant preserves the
invariant. -/
theorem SInv_addToReady {σ : AppState} (h : SInv σ) {id : String}
    (hpool : ∃ p ∈ σ.players, p.id = id ∧ p.status = Status.pool) :
    SInv (addToReady σ id) := by
  obtain ⟨h1, h2, h3, h4⟩ := h
  obtain ⟨p0, hp0m, hp0id, hp0st⟩ := hpool
  cases hfind : σ.readySets.findIdx? (fun s => decide (s.length < 4)) with
  | none =>
    rw [addToReady, hfind]
    exact ⟨h1, h2, h3, h4⟩
  | some t =>
    have hlt : t < σ.readySets.length :=
      (List.findIdx?_eq_some_iff_getElem.mp hfind).1
    have hget : σ.readySets.get? t = some (σ.readySets.getD t []) := by
      rw [List.get?_eq_getElem?, List.getElem?_eq_getElem hlt,
        List.getD_eq_getElem?_getD, List.getElem?_eq_getElem hlt]
      rfl
    rw [addToReady, hfind]
    dsimp only
    set g := σ.readySets.getD t [] with hgdef
    set f : Player → Player := fun p =>
      if p.id = id then { p with status := Status.ready } else p with hfdef
    have hf : ∀ p, (f p).id = p.id := by
      intro p
      by_cases hc : p.id = id <;> simp [hfdef, hc]
    have hgx : ∀ x, (((σ.readySets.set t (g ++ [id])).flatten).count x)
        = gOcc σ x + (if id = x then 1 else 0) := by
      intro x
      have hkey := flatten_count_set (g ++ [id]) x hget
      rw [List.count_append] at hkey
      have hsing : List.count x [id] = if id = x then 1 else 0 := by
        rw [List.count_singleton']
      have hgg : gOcc σ x = List.count x σ.readySets.flatten := rfl
      omega
    have hgo : ∀ x, gOcc ⟨σ.players.map f, σ.courts, σ.readySets.set t (g ++ [id])⟩ x
        = ((σ.readySets.set t (g ++ [id])).flatten).count x := fun x => rfl
    have hco : ∀ x, cOcc ⟨σ.players.map f, σ.courts, σ.readySets.set t (g ++ [id])⟩ x
        = cOcc σ x := fun x => rfl
    refine ⟨?_, h2, ?_, ?_⟩
    · show ((σ.players.map f).map Player.id).Nodup
      rw [players_map_id hf]
      exact h1
    · intro x hx
      show x ∈ (σ.players.map f).map Player.id
      rw [players_map_id hf]
      by_cases hxid : x = id
      · subst hxid
        exact List.mem_map.mpr ⟨p0, hp0m, hp0id⟩
      · apply h3 x
        rw [hgo x, hco x, hgx x, if_neg (fun hc => hxid hc.symm)] at hx
        omega
    · intro p' hp'
      rcases List.mem_map.mp hp' with ⟨p, hp, rfl⟩
      by_cases hpid : p.id = id
      · have hpe : p = p0 :=
          List.inj_on_of_nodup_map h1 hp hp0m (by rw [hpid, hp0id])
        have hst : p.status = Status.pool := by rw [hpe]; exact hp0st
        have hOk := h4 p hp
        unfold statusOk at hOk
        rw [hst] at hOk
        show statusOk _ (f p)
        rw [hfdef]
        dsimp only
        rw [if_pos hpid]
        unfold statusOk
        dsimp only
        constructor
        · rw [hgo p.id, hgx p.id, if_pos hpid.symm]
          omega
        · rw [hco p.id]
          exact hOk.2
      · show statusOk _ (f p)
        rw [hfdef]
        dsimp only
        rw [if_neg hpid]
        apply statusOk_of_eq ?_ (hco p.id) (h4 p hp)
        rw [hgo p.id, hgx p.id, if_neg (fun hc => hpid hc.symm)]
        omega

/-- Swapping in an existing `pool` participant preserves the
invariant. -/
theorem SInv_swap {σ : AppState} (h : SInv σ) {pid : String} (i j : Nat)
    (hpool : ∃ p ∈ σ.players, p.id = pid ∧ p.status = Status.pool) :
    SInv (swapReadyWithPool σ i j pid) := by
  obtain ⟨h1, h2, h3, h4⟩ := h
  obtain ⟨p1, hp1m, hp1id, hp1st⟩ := hpool
  cases hmatch : (σ.readySets.getD i []).get? j with
  | none =>
    rw [swapReadyWithPool, hmatch]
    exact ⟨h1, h2, h3, h4⟩
  | some out =>
    rw [swapReadyWithPool, hmatch]
    dsimp only
    by_cases hnil : out = ""
    · rw [if_pos hnil]
      exact ⟨h1, h2, h3, h4⟩
    rw [if_neg hnil]
    have hi : i < σ.readySets.length := by
      by_contra hc
      rw [List.getD_eq_getElem?_getD, List.getElem?_eq_none (by omega)] at hmatch
      simp at hmatch
    have hgeti : σ.readySets.get? i = some (σ.readySets.getD i []) := by
      rw [List.get?_eq_getElem?, List.getElem?_eq_getElem hi,
        List.getD_eq_getElem?_getD, List.getElem?_eq_getElem hi]
      rfl
    set g := σ.readySets.getD i [] with hgdef
    set f1 : Player → Player := fun p =>
      if p.id = out then { p with status := Status.pool } else p with hf1def
    set f2 : Player → Player := fun p =>
      if p.id = pid then { p with status := Status.ready } else p with hf2def
    have hf1 : ∀ p, (f1 p).id = p.id := by
      intro p
      by_cases hc : p.id = out <;> simp [hf1def, hc]
    have hf2 : ∀ p, (f2 p).id = p.id := by
      intro p
      by_cases hc : p.id = pid <;> simp [hf2def, hc]
    have hout_mem : out ∈ g := List.get?_mem hmatch
    have hout_cnt : 1 ≤ gOcc σ out := by
      have h1c : 0 < List.count out g := List.count_pos_iff.mpr hout_mem
      have h2c := count_le_flatten out hgeti
      have hgg : gOcc σ out = List.count out σ.readySets.flatten := rfl
      omega
    have hp1occ : gOcc σ pid = 0 ∧ cOcc σ pid = 0 := by
      have hOk := h4 p1 hp1m
      unfold statusOk at hOk
      rw [hp1st] at hOk
      rw [← hp1id]
      exact hOk
    have hpid_out : pid ≠ out := by
      intro hc
      rw [hc] at hp1occ
      omega
    have hkey : ∀ x, ((σ.readySets.set i (g.set j pid)).flatten).count x
          + (if (out == x) = true then 1 else 0)
        = gOcc σ x + (if (pid == x) = true then 1 else 0) := by
      intro x
      have hinner := count_set_plus pid x hmatch
      have houter := flatten_count_set (g.set j pid) x hgeti
      have hgg : gOcc σ x = List.count x σ.readySets.flatten := rfl
      omega
    have hgo : ∀ x, gOcc ⟨(σ.players.map f1).map f2, σ.courts,
        σ.readySets.set i (g.set j pid)⟩ x
        = ((σ.readySets.set i (g.set j pid)).flatten).count x := fun x => rfl
    have hco : ∀ x, cOcc ⟨(σ.players.map f1).map f2, σ.courts,
        σ.readySets.set i (g.set j pid)⟩ x = cOcc σ x := fun x => rfl
    refine ⟨?_, h2, ?_, ?_⟩
    · show (((σ.players.map f1).map f2).map Player.id).Nodup
      rw [players_map_id hf2, players_map_id hf1]
      exact h1
    · intro x hx
      show x ∈ ((σ.players.map f1).map f2).map Player.id
      rw [players_map_id hf2, players_map_id hf1]
      by_cases hxp : x = pid
      · subst hxp
        exact List.mem_map.mpr ⟨p1, hp1m, hp1id⟩
      · apply h3 x
        have hb : (pid == x) = false := beq_eq_false_iff_ne.mpr fun hc => hxp hc.symm
        have hk := hkey x
        rw [hb] at hk
        rw [hgo x, hco x] at hx
        simp only [Bool.false_eq_true, if_false] at hk
        omega
    · intro p' hp'
      rcases List.mem_map.mp hp' with ⟨q, hq, rfl⟩
      rcases List.mem_map.mp hq with ⟨p, hp, rfl⟩
      by_cases hpp : p.id = pid
      · have hpe : p = p1 :=
          List.inj_on_of_nodup_map h1 hp hp1m (by rw [hpp, hp1id])
        have hpo : p.id ≠ out := by rw [hpp]; exact hpid_out
        show statusOk _ (f2 (f1 p))
        rw [hf1def]
        dsimp only
        rw [if_neg hpo, hf2def]
        dsimp only
        rw [if_pos hpp]
        unfold statusOk
        dsimp only
        constructor
        · rw [hgo p.id]
          have hk := hkey p.id
          have hb1 : (pid == p.id) = true := beq_iff_eq.mpr hpp.symm
          have hb2 : (out == p.id) = false :=
            beq_eq_false_iff_ne.mpr fun hc => hpo hc.symm
          rw [hb1, hb2] at hk
          simp only [Bool.false_eq_true, if_false, if_true] at hk
          have hz : gOcc σ p.id = 0 := by rw [hpp]; exact hp1occ.1
          omega
        · rw [hco p.id, hpp]
          exact hp1occ.2
      · by_cases hpo : p.id = out
        · have hOk := h4 p hp
          have hst : p.status = Status.ready := by
            cases hs : p.status with
            | pool =>
              unfold statusOk at hOk
              rw [hs] at hOk
              rw [hpo] at hOk
              obtain ⟨ho1, ho2⟩ := hOk
              omega
            | ready => rfl
            | playing =>
              unfold statusOk at hOk
              rw [hs] at hOk
              rw [hpo] at hOk
              obtain ⟨ho1, ho2⟩ := hOk
              omega
          unfold statusOk at hOk
          rw [hst] at hOk
          show statusOk _ (f2 (f1 p))
          rw [hf1def]
          dsimp only
          rw [if_pos hpo, hf2def]
          dsimp only
          rw [if_neg (show ¬ p.id = pid from hpp)]
          unfold statusOk
          dsimp only
          constructor
          · rw [hgo p.id]
            have hk := hkey p.id
            have hb1 : (out == p.id) = true := beq_iff_eq.mpr hpo.symm
            have hb2 : (pid == p.id) = false :=
              beq_eq_false_iff_ne.mpr fun hc => hpp hc.symm
            rw [hb1, hb2] at hk
            simp only [Bool.false_eq_true, if_false, if_true] at hk
            have hg1 : gOcc σ p.id = 1 := by rw [hpo]; rw [hpo] at hOk; exact hOk.1
            omega
          · rw [hco p.id]
            exact hOk.2
        · show statusOk _ (f2 (f1 p))
          rw [hf1def]
          dsimp only
          rw [if_neg hpo, hf2def]
          dsimp only
          rw [if_neg hpp]
          apply statusOk_of_eq ?_ (hco p.id) (h4 p hp)
          rw [hgo p.id]
          have hk := hkey p.id
          have hb1 : (out == p.id) = false :=
            beq_eq_false_iff_ne.mpr fun hc => hpo hc.symm
          have hb2 : (pid == p.id) = false :=
            beq_eq_false_iff_ne.mpr fun hc => hpp hc.symm
          rw [hb1, hb2] at hk
          simp only [Bool.false_eq_true, if_false] at hk
          omega

/-- Deleting a participant preserves the invariant (cascading removal
from sets and courts keeps all other memberships intact). -/
theorem SInv_deletePlayer {σ : AppState} (h : SInv σ) (id : String) :
    SInv (deletePlayer σ id) := by
  obtain ⟨h1, h2, h3, h4⟩ := h
  have hpred_ne : ∀ x : String, x ≠ id → (decide (x ≠ id)) = true := by
    intro x hx
    simpa using hx
  have hgx : ∀ x, x ≠ id → gOcc (deletePlayer σ id) x = gOcc σ x := by
    intro x hx
    show ((σ.readySets.map fun s => s.filter fun pid => decide (pid ≠ id)).flatten).count x
      = _
    rw [flatten_count_filter_keep (hpred_ne x hx)]
    rfl
  have hgid : gOcc (deletePlayer σ id) id = 0 := by
    show ((σ.readySets.map fun s => s.filter fun pid => decide (pid ≠ id)).flatten).count id
      = 0
    apply flatten_count_filter_drop
    simp
  have hmapc : (σ.courts.map fun c =>
        if decide (id ∈ c.playingIds) then
          { c with playingIds := c.playingIds.filter fun x => decide (x ≠ id) }
        else c).map Court.playingIds
      = (σ.courts.map Court.playingIds).map fun s => s.filter fun x => decide (x ≠ id) := by
    rw [List.map_map, List.map_map]
    apply List.map_congr_left
    intro c hc
    show (if decide (id ∈ c.playingIds) then
        { c with playingIds := c.playingIds.filter fun x => decide (x ≠ id) }
      else c).playingIds = c.playingIds.filter fun x => decide (x ≠ id)
    by_cases hm : id ∈ c.playingIds
    · rw [if_pos (by simpa using hm)]
    · rw [if_neg (by simpa using hm)]
      exact (List.filter_eq_self.mpr fun a ha => hpred_ne a fun hc2 => hm (hc2 ▸ ha)).symm
  have hcx : ∀ x, x ≠ id → cOcc (deletePlayer σ id) x = cOcc σ x := by
    intro x hx
    show (((σ.courts.map _).map Court.playingIds).flatten).count x = _
    rw [hmapc, flatten_count_filter_keep (hpred_ne x hx)]
    rfl
  have hcid : cOcc (deletePlayer σ id) id = 0 := by
    show (((σ.courts.map _).map Court.playingIds).flatten).count id = 0
    rw [hmapc]
    apply flatten_count_filter_drop
    simp
  refine ⟨?_, ?_, ?_, ?_⟩
  · show (((σ.players.filter fun p => decide (p.id ≠ id)).map Player.id)).Nodup
    exact ((List.filter_sublist σ.players).map Player.id).nodup h1
  · show ((σ.courts.map _).map Court.id).Nodup
    have : (σ.courts.map fun c =>
        if decide (id ∈ c.playingIds) then
          { c with playingIds := c.playingIds.filter fun x => decide (x ≠ id) }
        else c).map Court.id = σ.courts.map Court.id := by
      rw [List.map_map]
      apply List.map_congr_left
      intro c hc
      by_cases hm : id ∈ c.playingIds
      · show (if decide (id ∈ c.playingIds) then _ else c).id = c.id
        rw [if_pos (by simpa using hm)]
      · show (if decide (id ∈ c.playingIds) then _ else c).id = c.id
        rw [if_neg (by simpa using hm)]
    rw [this]
    exact h2
  · intro x hx
    by_cases hxid : x = id
    · exfalso
      rw [hxid] at hx
      rw [hgid, hcid] at hx
      omega
    · rw [hgx x hxid, hcx x hxid] at hx
      have hmem := h3 x hx
      rcases List.mem_map.mp hmem with ⟨p, hp, rfl⟩
      refine List.mem_map.mpr ⟨p, ?_, rfl⟩
      exact List.mem_filter.mpr ⟨hp, hpred_ne p.id hxid⟩
  · intro p hp
    have hp' := List.mem_filter.mp hp
    have hpid : p.id ≠ id := by simpa using hp'.2
    exact statusOk_of_eq (hgx p.id hpid) (hcx p.id hpid) (h4 p hp'.1)

/-- Removing a group preserves the invariant (its occupants return to
`pool`). -/
theorem SInv_removeSet {σ : AppState} (h : SInv σ) (i : Nat) :
    SInv (removeSet σ i) := by
  obtain ⟨h1, h2, h3, h4⟩ := h
  rw [removeSet]
  set current := σ.readySets.getD i [] with hcur
  set copy := σ.readySets.eraseIdx i with hcopy
  set ps' : List Player := if current.isEmpty then σ.players
    else σ.players.map fun p =>
      if decide (p.id ∈ current) then { p with status := Status.pool } else p with hps'
  set rs' : List (List String) := if copy.isEmpty then [[]] else copy with hrs'
  have hgx : ∀ x, (rs'.flatten).count x + current.count x = gOcc σ x := by
    intro x
    have hcopy_cnt : (copy.flatten).count x + current.count x = gOcc σ x := by
      by_cases hi : i < σ.readySets.length
      · have hget : σ.readySets.get? i = some current := by
          rw [List.get?_eq_getElem?, List.getElem?_eq_getElem hi, hcur,
            List.getD_eq_getElem?_getD, List.getElem?_eq_getElem hi]
          rfl
        exact flatten_count_erase x hget
      · have hc0 : current = [] := by
          rw [hcur, List.getD_eq_getElem?_getD, List.getElem?_eq_none (by omega)]
          rfl
        have hce : copy = σ.readySets := by
          rw [hcopy]
          exact List.eraseIdx_of_length_le (by omega)
        rw [hc0, hce]
        simp [gOcc]
    by_cases hemp : copy.isEmpty
    · have hcnil : copy = [] := List.isEmpty_iff.mp hemp
      rw [hrs', if_pos hemp]
      rw [hcnil] at hcopy_cnt
      simpa using hcopy_cnt
    · rw [hrs', if_neg hemp]
      exact hcopy_cnt
  have hcnt_le : ∀ x, current.count x ≤ gOcc σ x := by
    intro x
    have := hgx x
    omega
  have hfid : ∀ p : Player,
      ((if current.isEmpty then σ.players
        else σ.players.map fun p =>
          if decide (p.id ∈ current) then { p with status := Status.pool } else p)
        = ps') := fun _ => rfl
  have hmem_ps' : ∀ p' ∈ ps', ∃ p ∈ σ.players, p' =
      (if current.isEmpty then p
       else if decide (p.id ∈ current) then { p with status := Status.pool } else p) := by
    intro p' hp'
    by_cases hemp : current.isEmpty
    · rw [hps', if_pos hemp] at hp'
      exact ⟨p', hp', by rw [if_pos hemp]⟩
    · rw [hps', if_neg hemp] at hp'
      rcases List.mem_map.mp hp' with ⟨p, hp, rfl⟩
      exact ⟨p, hp, by rw [if_neg hemp]⟩
  have hids : ps'.map Player.id = σ.players.map Player.id := by
    by_cases hemp : current.isEmpty
    · rw [hps', if_pos hemp]
    · rw [hps', if_neg hemp]
      apply players_map_id
      intro p
      by_cases hc : p.id ∈ current
      · rw [if_pos (by simpa using hc)]
      · rw [if_neg (by simpa using hc)]
  refine ⟨?_, h2, ?_, ?_⟩
  · show (ps'.map Player.id).Nodup
    rw [hids]
    exact h1
  · intro x hx
    show x ∈ ps'.map Player.id
    rw [hids]
    apply h3 x
    have hgo : gOcc ⟨ps', σ.courts, rs'⟩ x = (rs'.flatten).count x := rfl
    have hco : cOcc ⟨ps', σ.courts, rs'⟩ x = cOcc σ x := rfl
    rw [hgo, hco] at hx
    have := hgx x
    omega
  · intro p' hp'
    obtain ⟨p, hp, rfl⟩ := hmem_ps' p' hp'
    have hgo : ∀ y, gOcc ⟨ps', σ.courts, rs'⟩ y = (rs'.flatten).count y := fun _ => rfl
    have hco : ∀ y, cOcc ⟨ps', σ.courts, rs'⟩ y = cOcc σ y := fun _ => rfl
    by_cases hemp : current.isEmpty
    · rw [if_pos hemp]
      apply statusOk_of_eq ?_ (hco p.id) (h4 p hp)
      rw [hgo p.id]
      have hcnil : current = [] := List.isEmpty_iff.mp hemp
      have := hgx p.id
      rw [hcnil] at this
      simpa using this
    · rw [if_neg hemp]
      by_cases hm : p.id ∈ current
      · rw [if_pos (by simpa using hm)]
        have hOk := h4 p hp
        have hcp : 1 ≤ List.count p.id current := List.count_pos_iff.mpr hm
        have hst : p.status = Status.ready := by
          cases hs : p.status with
          | pool =>
            unfold statusOk at hOk
            rw [hs] at hOk
            obtain ⟨ho1, ho2⟩ := hOk
            have := hcnt_le p.id
            omega
          | ready => rfl
          | playing =>
            unfold statusOk at hOk
            rw [hs] at hOk
            obtain ⟨ho1, ho2⟩ := hOk
            have := hcnt_le p.id
            omega
        unfold statusOk at hOk
        rw [hst] at hOk
        obtain ⟨ho1, ho2⟩ := hOk
        unfold statusOk
        dsimp only
        constructor
        · rw [hgo p.id]
          have := hgx p.id
          have := hcnt_le p.id
          omega
        · rw [hco p.id]
          exact ho2
      · rw [if_neg (by simpa using hm)]
        apply statusOk_of_eq ?_ (hco p.id) (h4 p hp)
        rw [hgo p.id]
        have hz : List.count p.id current = 0 := List.count_eq_zero.mpr hm
        have := hgx p.id
        omega

/-- Id-preserving court updates keep the id projection. -/
theorem courts_map_id {cs : List Court} {f : Court → Court}
    (hf : ∀ c, (f c).id = c.id) : (cs.map f).map Court.id = cs.map Court.id := by
  rw [List.map_map]
  exact List.map_congr_left fun a _ => hf a

/-- Mapping an update targeted at a unique court id rewrites exactly
that court. -/
theorem map_court_update {cs : List Court} {cid : String} {u : Court → Court}
    (C1 C2 : List Court) (c : Court)
    (hdec : cs = C1 ++ c :: C2) (hcid : c.id = cid)
    (hn1 : ∀ c' ∈ C1, c'.id ≠ cid) (hn2 : ∀ c' ∈ C2, c'.id ≠ cid) :
    cs.map (fun c' => if c'.id = cid then u c' else c') = C1 ++ u c :: C2 := by
  subst hdec
  rw [List.map_append, List.map_cons, if_pos hcid,
    map_eq_self_of fun c' hc' => if_neg (hn1 c' hc'),
    map_eq_self_of fun c' hc' => if_neg (hn2 c' hc')]

/-- Ending a station session preserves the invariant. -/
theorem SInv_endMatch {σ : AppState} (h : SInv σ) (cid : String) :
    SInv (endMatch σ cid) := by
  obtain ⟨h1, h2, h3, h4⟩ := h
  cases hfind : σ.courts.find? (fun c => decide (c.id = cid)) with
  | none =>
    rw [endMatch, hfind]
    exact ⟨h1, h2, h3, h4⟩
  | some c =>
    rw [endMatch, hfind]
    dsimp only
    have hcid : c.id = cid := by simpa using List.find?_some hfind
    have hcm : c ∈ σ.courts := List.mem_of_find?_eq_some hfind
    obtain ⟨C1, C2, hdec, hn1, hn2⟩ := court_decomp h2 hcm
    have hn1' : ∀ c' ∈ C1, c'.id ≠ cid := fun c' h' hc' => hn1 c' h' (by rw [hc', hcid])
    have hn2' : ∀ c' ∈ C2, c'.id ≠ cid := fun c' h' hc' => hn2 c' h' (by rw [hc', hcid])
    have hupdate : σ.courts.map (fun c' =>
        if c'.id = cid then { c' with playingIds := [], startedAt := none } else c')
        = C1 ++ ({ c with playingIds := [], startedAt := none }) :: C2 :=
      map_court_update C1 C2 c hdec hcid hn1' hn2'
    set ids := c.playingIds with hids
    set ps' : List Player := if ids.isEmpty then σ.players
      else σ.players.map fun p =>
        if decide (p.id ∈ ids) then
          { p with «matches» := p.«matches» + 1, status := Status.pool }
        else p with hps'
    have hcold : ∀ x, cOcc σ x
        = ((C1.map Court.playingIds).flatten).count x + ids.count x
          + ((C2.map Court.playingIds).flatten).count x := by
      intro x
      show ((σ.courts.map Court.playingIds).flatten).count x = _
      rw [hdec]
      exact courts_count_append C1 C2 c x
    have hcnew : ∀ x, cOcc ⟨ps', σ.courts.map fun c' =>
          if c'.id = cid then { c' with playingIds := [], startedAt := none } else c',
          σ.readySets⟩ x + ids.count x = cOcc σ x := by
      intro x
      show (((σ.courts.map fun c' =>
        if c'.id = cid then { c' with playingIds := [], startedAt := none } else c').map
          Court.playingIds).flatten).count x + ids.count x = _
      rw [hupdate, courts_count_append C1 C2 _ x, hcold x]
      simp only [List.count_nil]
      omega
    have hgo : ∀ y, gOcc ⟨ps', σ.courts.map fun c' =>
        if c'.id = cid then { c' with playingIds := [], startedAt := none } else c',
        σ.readySets⟩ y = gOcc σ y := fun _ => rfl
    have hcnt_le : ∀ x, ids.count x ≤ cOcc σ x := by
      intro x
      have := hcold x
      omega
    have hmem_ps' : ∀ p' ∈ ps', ∃ p ∈ σ.players, p' =
        (if ids.isEmpty then p
         else if decide (p.id ∈ ids) then
           { p with «matches» := p.«matches» + 1, status := Status.pool } else p) := by
      intro p' hp'
      by_cases hemp : ids.isEmpty
      · rw [hps', if_pos hemp] at hp'
        exact ⟨p', hp', by rw [if_pos hemp]⟩
      · rw [hps', if_neg hemp] at hp'
        rcases List.mem_map.mp hp' with ⟨p, hp, rfl⟩
        exact ⟨p, hp, by rw [if_neg hemp]⟩
    have hids_eq : ps'.map Player.id = σ.players.map Player.id := by
      by_cases hemp : ids.isEmpty
      · rw [hps', if_pos hemp]
      · rw [hps', if_neg hemp]
        apply players_map_id
        intro p
        by_cases hc : p.id ∈ ids
        · rw [if_pos (by simpa using hc)]
        · rw [if_neg (by simpa using hc)]
    refine ⟨?_, ?_, ?_, ?_⟩
    · show (ps'.map Player.id).Nodup
      rw [hids_eq]
      exact h1
    · show ((σ.courts.map fun c' =>
        if c'.id = cid then { c' with playingIds := [], startedAt := none } else c').map
          Court.id).Nodup
      rw [courts_map_id]
      · exact h2
      · intro c'
        by_cases hc : c'.id = cid
        · rw [if_pos hc]
        · rw [if_neg hc]
    · intro x hx
      show x ∈ ps'.map Player.id
      rw [hids_eq]
      apply h3 x
      rw [hgo x] at hx
      have := hcnew x
      omega
    · intro p' hp'
      obtain ⟨p, hp, rfl⟩ := hmem_ps' p' hp'
      by_cases hemp : ids.isEmpty
      · rw [if_pos hemp]
        apply statusOk_of_eq (hgo p.id) ?_ (h4 p hp)
        have hz : List.count p.id ids = 0 := by
          rw [List.isEmpty_iff.mp hemp]
          rfl
        have := hcnew p.id
        omega
      · rw [if_neg hemp]
        by_cases hm : p.id ∈ ids
        · rw [if_pos (by simpa using hm)]
          have hOk := h4 p hp
          have hcp : 1 ≤ List.count p.id ids := List.count_pos_iff.mpr hm
          have hst : p.status = Status.playing := by
            cases hs : p.status with
            | pool =>
              unfold statusOk at hOk
              rw [hs] at hOk
              obtain ⟨ho1, ho2⟩ := hOk
              have := hcnt_le p.id
              omega
            | ready =>
              unfold statusOk at hOk
              rw [hs] at hOk
              obtain ⟨ho1, ho2⟩ := hOk
              have := hcnt_le p.id
              omega
            | playing => rfl
          unfold statusOk at hOk
          rw [hst] at hOk
          obtain ⟨ho1, ho2⟩ := hOk
          unfold statusOk
          dsimp only
          refine ⟨hgo p.id ▸ ho1, ?_⟩
          have := hcnew p.id
          omega
        · rw [if_neg (by simpa using hm)]
          apply statusOk_of_eq (hgo p.id) ?_ (h4 p hp)
          have hz : List.count p.id ids = 0 := List.count_eq_zero.mpr hm
          have := hcnew p.id
          omega

/-- Removing a station preserves the invariant (an active station's
occupants return to `pool` first). -/
theorem SInv_removeCourt {σ : AppState} (h : SInv σ) (cid : String) :
    SInv (removeCourt σ cid) := by
  obtain ⟨h1, h2, h3, h4⟩ := h
  rw [removeCourt]
  cases hfind : σ.courts.find? (fun c => decide (c.id = cid)) with
  | none =>
    have hself : σ.courts.filter (fun c => decide (c.id ≠ cid)) = σ.courts := by
      apply List.filter_eq_self.mpr
      intro c hc
      have := List.find?_eq_none.mp hfind c hc
      simpa using this
    dsimp only
    rw [hself]
    exact ⟨h1, h2, h3, h4⟩
  | some c =>
    dsimp only
    have hcid : c.id = cid := by simpa using List.find?_some hfind
    have hcm : c ∈ σ.courts := List.mem_of_find?_eq_some hfind
    obtain ⟨C1, C2, hdec, hn1, hn2⟩ := court_decomp h2 hcm
    have hn1' : ∀ c' ∈ C1, c'.id ≠ cid := fun c' h' hc' => hn1 c' h' (by rw [hc', hcid])
    have hn2' : ∀ c' ∈ C2, c'.id ≠ cid := fun c' h' hc' => hn2 c' h' (by rw [hc', hcid])
    have hfilter : σ.courts.filter (fun c' => decide (c'.id ≠ cid)) = C1 ++ C2 := by
      rw [hdec, List.filter_append, List.filter_cons]
      rw [if_neg (by simp [hcid])]
      rw [List.filter_eq_self.mpr fun a ha => by simpa using hn1' a ha,
        List.filter_eq_self.mpr fun a ha => by simpa using hn2' a ha]
    set ids := c.playingIds with hids
    set ps' : List Player := if ids.isEmpty then σ.players
      else σ.players.map fun p =>
        if decide (p.id ∈ ids) then
          { p with status := Status.pool, «matches» := p.«matches» + 1 }
        else p with hps'
    have hcold : ∀ x, cOcc σ x
        = ((C1.map Court.playingIds).flatten).count x + ids.count x
          + ((C2.map Court.playingIds).flatten).count x := by
      intro x
      show ((σ.courts.map Court.playingIds).flatten).count x = _
      rw [hdec]
      exact courts_count_append C1 C2 c x
    have hcnew : ∀ x,
        cOcc ⟨ps', σ.courts.filter (fun c' => decide (c'.id ≠ cid)), σ.readySets⟩ x
          + ids.count x = cOcc σ x := by
      intro x
      show (((σ.courts.filter fun c' => decide (c'.id ≠ cid)).map
          Court.playingIds).flatten).count x + ids.count x = _
      rw [hfilter, hcold x]
      simp only [List.map_append, List.flatten_append, List.count_append]
      omega
    have hgo : ∀ y,
        gOcc ⟨ps', σ.courts.filter (fun c' => decide (c'.id ≠ cid)), σ.readySets⟩ y
          = gOcc σ y := fun _ => rfl
    have hcnt_le : ∀ x, ids.count x ≤ cOcc σ x := by
      intro x
      have := hcold x
      omega
    have hmem_ps' : ∀ p' ∈ ps', ∃ p ∈ σ.players, p' =
        (if ids.isEmpty then p
         else if decide (p.id ∈ ids) then
           { p with status := Status.pool, «matches» := p.«matches» + 1 } else p) := by
      intro p' hp'
      by_cases hemp : ids.isEmpty
      · rw [hps', if_pos hemp] at hp'
        exact ⟨p', hp', by rw [if_pos hemp]⟩
      · rw [hps', if_neg hemp] at hp'
        rcases List.mem_map.mp hp' with ⟨p, hp, rfl⟩
        exact ⟨p, hp, by rw [if_neg hemp]⟩
    have hids_eq : ps'.map Player.id = σ.players.map Player.id := by
      by_cases hemp : ids.isEmpty
      · rw [hps', if_pos hemp]
      · rw [hps', if_neg hemp]
        apply players_map_id
        intro p
        by_cases hc : p.id ∈ ids
        · rw [if_pos (by simpa using hc)]
        · rw [if_neg (by simpa using hc)]
    refine ⟨?_, ?_, ?_, ?_⟩
    · show (ps'.map Player.id).Nodup
      rw [hids_eq]
      exact h1
    · show ((σ.courts.filter fun c' => decide (c'.id ≠ cid)).map Court.id).Nodup
      exact ((List.filter_sublist σ.courts).map Court.id).nodup h2
    · intro x hx
      show x ∈ ps'.map Player.id
      rw [hids_eq]
      apply h3 x
      rw [hgo x] at hx
      have := hcnew x
      omega
    · intro p' hp'
      obtain ⟨p, hp, rfl⟩ := hmem_ps' p' hp'
      by_cases hemp : ids.isEmpty
      · rw [if_pos hemp]
        apply statusOk_of_eq (hgo p.id) ?_ (h4 p hp)
        have hz : List.count p.id ids = 0 := by
          rw [List.isEmpty_iff.mp hemp]
          rfl
        have := hcnew p.id
        omega
      · rw [if_neg hemp]
        by_cases hm : p.id ∈ ids
        · rw [if_pos (by simpa using hm)]
          have hOk := h4 p hp
          have hcp : 1 ≤ List.count p.id ids := List.count_pos_iff.mpr hm
          have hst : p.status = Status.playing := by
            cases hs : p.status with
            | pool =>
              unfold statusOk at hOk
              rw [hs] at hOk
              obtain ⟨ho1, ho2⟩ := hOk
              have := hcnt_le p.id
              omega
            | ready =>
              unfold statusOk at hOk
              rw [hs] at hOk
              obtain ⟨ho1, ho2⟩ := hOk
              have := hcnt_le p.id
              omega
            | playing => rfl
          unfold statusOk at hOk
          rw [hst] at hOk
          obtain ⟨ho1, ho2⟩ := hOk
          unfold statusOk
          dsimp only
          refine ⟨hgo p.id ▸ ho1, ?_⟩
          have := hcnew p.id
          omega
        · rw [if_neg (by simpa using hm)]
          apply statusOk_of_eq (hgo p.id) ?_ (h4 p hp)
          have hz : List.count p.id ids = 0 := List.count_eq_zero.mpr hm
          have := hcnew p.id
          omega

/-- Assigning a full group to an existing idle station preserves the
invariant. -/
theorem SInv_assign {σ : AppState} (h : SInv σ) (i : Nat) {cid : String} (now : Nat)
    (hidle : ∃ c ∈ σ.courts, c.id = cid ∧ c.playingIds = []) :
    SInv (assignSetToCourt σ i cid now) := by
  obtain ⟨h1, h2, h3, h4⟩ := h
  obtain ⟨c0, hc0m, hc0id, hc0idle⟩ := hidle
  rw [assignSetToCourt]
  by_cases hlen : (σ.readySets.getD i []).length = 4
  · rw [if_pos hlen]
    set g := σ.readySets.getD i [] with hgdef
    have hi : i < σ.readySets.length := by
      by_contra hc
      rw [hgdef, List.getD_eq_getElem?_getD, List.getElem?_eq_none (by omega)] at hlen
      simp at hlen
    have hgeti : σ.readySets.get? i = some g := by
      rw [List.get?_eq_getElem?, List.getElem?_eq_getElem hi, hgdef,
        List.getD_eq_getElem?_getD, List.getElem?_eq_getElem hi]
      rfl
    obtain ⟨C1, C2, hdec, hn1, hn2⟩ := court_decomp h2 hc0m
    have hn1' : ∀ c' ∈ C1, c'.id ≠ cid := fun c' h' hc' => hn1 c' h' (by rw [hc', hc0id])
    have hn2' : ∀ c' ∈ C2, c'.id ≠ cid := fun c' h' hc' => hn2 c' h' (by rw [hc', hc0id])
    have hupdate : σ.courts.map (fun c' =>
        if c'.id = cid then { c' with playingIds := g, startedAt := some now } else c')
        = C1 ++ ({ c0 with playingIds := g, startedAt := some now }) :: C2 :=
      map_court_update C1 C2 c0 hdec hc0id hn1' hn2'
    set fP : Player → Player := fun p =>
      if decide (p.id ∈ g) then { p with status := Status.playing } else p with hfP
    have hfPid : ∀ p, (fP p).id = p.id := by
      intro p
      by_cases hc : p.id ∈ g <;> simp [hfP, hc]
    have hgnew : ∀ x, ((shiftSetsAfterAssign σ.readySets i).flatten).count x + g.count x
        = gOcc σ x := by
      intro x
      rw [shiftSetsAfterAssign, flatten_count_snoc]
      have := flatten_count_erase x hgeti
      have hz : List.count x ([] : List String) = 0 := rfl
      have hgg : gOcc σ x = List.count x σ.readySets.flatten := rfl
      omega
    have hcold : ∀ x, cOcc σ x
        = ((C1.map Court.playingIds).flatten).count x
          + ((C2.map Court.playingIds).flatten).count x := by
      intro x
      show ((σ.courts.map Court.playingIds).flatten).count x = _
      rw [hdec]
      have := courts_count_append C1 C2 c0 x
      rw [hc0idle] at this
      simpa using this
    have hcnew : ∀ x, cOcc ⟨σ.players.map fP, σ.courts.map fun c' =>
          if c'.id = cid then { c' with playingIds := g, startedAt := some now } else c',
          shiftSetsAfterAssign σ.readySets i⟩ x
        = cOcc σ x + g.count x := by
      intro x
      show (((σ.courts.map fun c' =>
        if c'.id = cid then { c' with playingIds := g, startedAt := some now } else c').map
          Court.playingIds).flatten).count x = _
      rw [hupdate, courts_count_append C1 C2 _ x, hcold x]
      dsimp only
      omega
    have hgnew' : ∀ x, gOcc ⟨σ.players.map fP, σ.courts.map fun c' =>
          if c'.id = cid then { c' with playingIds := g, startedAt := some now } else c',
          shiftSetsAfterAssign σ.readySets i⟩ x
        = ((shiftSetsAfterAssign σ.readySets i).flatten).count x := fun _ => rfl
    have hcnt_le : ∀ x, g.count x ≤ gOcc σ x := fun x => count_le_flatten x hgeti
    refine ⟨?_, ?_, ?_, ?_⟩
    · show ((σ.players.map fP).map Player.id).Nodup
      rw [players_map_id hfPid]
      exact h1
    · show ((σ.courts.map fun c' =>
        if c'.id = cid then { c' with playingIds := g, startedAt := some now } else c').map
          Court.id).Nodup
      rw [courts_map_id]
      · exact h2
      · intro c'
        by_cases hc : c'.id = cid
        · rw [if_pos hc]
        · rw [if_neg hc]
    · intro x hx
      show x ∈ (σ.players.map fP).map Player.id
      rw [players_map_id hfPid]
      apply h3 x
      rw [hgnew' x, hcnew x] at hx
      have := hgnew x
      omega
    · intro p' hp'
      rcases List.mem_map.mp hp' with ⟨p, hp, rfl⟩
      by_cases hm : p.id ∈ g
      · show statusOk _ (fP p)
        rw [hfP]
        dsimp only
        rw [if_pos (by simpa using hm)]
        have hOk := h4 p hp
        have hcp : 1 ≤ List.count p.id g := List.count_pos_iff.mpr hm
        have hst : p.status = Status.ready := by
          cases hs : p.status with
          | pool =>
            unfold statusOk at hOk
            rw [hs] at hOk
            obtain ⟨ho1, ho2⟩ := hOk
            have := hcnt_le p.id
            omega
          | ready => rfl
          | playing =>
            unfold statusOk at hOk
            rw [hs] at hOk
            obtain ⟨ho1, ho2⟩ := hOk
            have := hcnt_le p.id
            omega
        unfold statusOk at hOk
        rw [hst] at hOk
        obtain ⟨ho1, ho2⟩ := hOk
        unfold statusOk
        dsimp only
        constructor
        · rw [hgnew' p.id]
          have := hgnew p.id
          have := hcnt_le p.id
          omega
        · rw [hcnew p.id]
          have := hcnt_le p.id
          omega
      · show statusOk _ (fP p)
        rw [hfP]
        dsimp only
        rw [if_neg (by simpa using hm)]
        have hz : List.count p.id g = 0 := List.count_eq_zero.mpr hm
        apply statusOk_of_eq ?_ ?_ (h4 p hp)
        · rw [hgnew' p.id]
          have := hgnew p.id
          omega
        · rw [hcnew p.id]
          omega
  · rw [if_neg hlen]
    exact ⟨h1, h2, h3, h4⟩

/-- `distAux` adds exactly the consumed ids to the groups. -/
theorem distAux_flatten_count (sets : List (List String)) (q : List String)
    (cap : Nat) (x : String) :
    ((distAux sets q cap).1.flatten).count x
      = (sets.flatten).count x + ((distAux sets q cap).2.2).count x := by
  induction sets generalizing q with
  | nil => simp [distAux]
  | cons g gs ih =>
    simp only [distAux, fillGroup_eq, List.flatten_cons, List.count_append]
    have := ih (q.drop (cap - g.length))
    omega

/-- Bulk fill preserves the invariant. -/
theorem SInv_fillAll {σ : AppState} (h : SInv σ) (rand : List Nat) :
    SInv (fillAllSets σ rand) := by
  obtain ⟨h1, h2, h3, h4⟩ := h
  by_cases hu : usedOf σ rand = []
  · rw [fillAllSets_nil hu]
    exact ⟨h1, h2, h3, h4⟩
  have hsne := sets_ne_of_used_ne hu
  rw [fillAllSets_cons hu]
  set q : List String := (selectionQueue σ.players rand).map (·.id) with hqdef
  have hused_eq : usedOf σ rand = (distAux σ.readySets q 4).2.2 := rfl
  have hfst : (distributeFill σ.readySets q 4).1 = (distAux σ.readySets q 4).1 :=
    distributeFill_fst_of_ne hsne
  set f : Player → Player := fun p =>
    if decide (p.id ∈ usedOf σ rand) then { p with status := Status.ready } else p
    with hfdef
  have hfid : ∀ p, (f p).id = p.id := by
    intro p
    by_cases hc : p.id ∈ usedOf σ rand <;> simp [hfdef, hc]
  have hperm : (selectionQueue σ.players rand).Perm (poolOf σ.players) :=
    selectionQueue_perm σ.players rand
  have hqperm : q.Perm ((poolOf σ.players).map (·.id)) := hperm.map _
  have hpool_nd : ((poolOf σ.players).map (·.id)).Nodup := by
    have hsub : ((poolOf σ.players).map (·.id)).Sublist (σ.players.map (·.id)) :=
      (List.filter_sublist σ.players).map _
    have heq : σ.players.map (fun p : Player => p.id) = σ.players.map Player.id := rfl
    exact List.Nodup.sublist hsub (by rw [heq]; exact h1)
  have hqnd : q.Nodup := hqperm.nodup_iff.mpr hpool_nd
  have hused_sub : (usedOf σ rand).Sublist q := by
    obtain ⟨k, hk⟩ := distAux_used_take σ.readySets q 4
    rw [hused_eq, hk]
    exact List.take_sublist k q
  have hund : (usedOf σ rand).Nodup := List.Nodup.sublist hused_sub hqnd
  have hmem_used_pool : ∀ x ∈ usedOf σ rand,
      ∃ p ∈ σ.players, p.id = x ∧ p.status = Status.pool := by
    intro x hx
    have hxq : x ∈ q := hused_sub.mem hx
    have hxp : x ∈ (poolOf σ.players).map (·.id) := hqperm.mem_iff.mp hxq
    rcases List.mem_map.mp hxp with ⟨p, hp, rfl⟩
    have hp' := List.mem_filter.mp hp
    exact ⟨p, hp'.1, rfl, by simpa using hp'.2⟩
  have hgnew : ∀ x, gOcc ⟨σ.players.map f, σ.courts, (distributeFill σ.readySets q 4).1⟩ x
      = gOcc σ x + List.count x (usedOf σ rand) := by
    intro x
    show (((distributeFill σ.readySets q 4).1).flatten).count x = _
    rw [hfst, distAux_flatten_count, hused_eq]
    rfl
  have hco : ∀ x, cOcc ⟨σ.players.map f, σ.courts, (distributeFill σ.readySets q 4).1⟩ x
      = cOcc σ x := fun _ => rfl
  have hcount_notmem : ∀ x, x ∉ usedOf σ rand → List.count x (usedOf σ rand) = 0 :=
    fun x hx => List.count_eq_zero.mpr hx
  refine ⟨?_, h2, ?_, ?_⟩
  · show ((σ.players.map f).map Player.id).Nodup
    rw [players_map_id hfid]
    exact h1
  · intro x hx
    show x ∈ (σ.players.map f).map Player.id
    rw [players_map_id hfid]
    rw [hgnew x, hco x] at hx
    by_cases hm : x ∈ usedOf σ rand
    · rcases hmem_used_pool x hm with ⟨p, hp, hpid, -⟩
      exact List.mem_map.mpr ⟨p, hp, hpid⟩
    · rw [hcount_notmem x hm] at hx
      exact h3 x (by omega)
  · intro p' hp'
    rcases List.mem_map.mp hp' with ⟨p, hp, rfl⟩
    by_cases hm : p.id ∈ usedOf σ rand
    · rcases hmem_used_pool p.id hm with ⟨p0, hp0, hp0id, hp0st⟩
      have hpe : p = p0 := List.inj_on_of_nodup_map h1 hp hp0 (by rw [hp0id])
      have hst : p.status = Status.pool := by rw [hpe]; exact hp0st
      have hOk := h4 p hp
      unfold statusOk at hOk
      rw [hst] at hOk
      obtain ⟨ho1, ho2⟩ := hOk
      show statusOk _ (f p)
      rw [hfdef]
      dsimp only
      rw [if_pos (by simpa using hm)]
      unfold statusOk
      dsimp only
      have hc1 : List.count p.id (usedOf σ rand) = 1 := by
        have hle := List.nodup_iff_count_le_one.mp hund p.id
        have hge : 0 < List.count p.id (usedOf σ rand) := List.count_pos_iff.mpr hm
        omega
      constructor
      · rw [hgnew p.id, hc1]
        omega
      · rw [hco p.id]
        exact ho2
    · show statusOk _ (f p)
      rw [hfdef]
      dsimp only
      rw [if_neg (by simpa using hm)]
      apply statusOk_of_eq ?_ (hco p.id) (h4 p hp)
      rw [hgnew p.id, hcount_notmem p.id hm]
      omega

/-- The invariant holds initially. -/
theorem SInv_init : SInv initState := by
  refine ⟨by simp [initState], by simp [initState], ?_, by simp [initState]⟩
  intro x hx
  exfalso
  have hg : gOcc initState x = 0 := rfl
  have hc : cOcc initState x = 0 := rfl
  omega

/-- The invariant holds in every reachable state. -/
theorem SInv_reach (σ : AppState) (h : GReach σ) : SInv σ := by
  induction h with
  | init => exact SInv_init
  | step hr hs ih =>
    cases hs with
    | addP id name g sk hg => exact SInv_confirmAddPlayer ih name g sk hg
    | delP id => exact SInv_deletePlayer ih id
    | promote id hg => exact SInv_addToReady ih hg
    | swapP i j pid hg => exact SInv_swap ih i j hg
    | fill rand => exact SInv_fillAll ih rand
    | newCourt cid hg => exact SInv_addCourt ih hg
    | delCourt cid => exact SInv_removeCourt ih cid
    | assign i cid now hg => exact SInv_assign ih i now hg
    | delSet i => exact SInv_removeSet ih i
    | endS cid => exact SInv_endMatch ih cid
    | newSet => exact SInv_createSet ih
    | sanitize => exact SInv_sanitize ih

/-- A single total occurrence lies in exactly one group. -/
theorem countP_mem_of_count_one {L : List (List String)} {x : String}
    (h : (L.flatten).count x = 1) :
    L.countP (fun g => decide (x ∈ g)) = 1 := by
  induction L with
  | nil => simp at h
  | cons g gs ih =>
    rw [List.flatten_cons, List.count_append] at h
    rw [List.countP_cons]
    by_cases hg : List.count x g = 0
    · have hnm : x ∉ g := List.count_eq_zero.mp hg
      rw [if_neg (by simpa using hnm)]
      have := ih (by omega)
      omega
    · have hm : x ∈ g := List.count_pos_iff.mp (by omega)
      rw [if_pos (by simpa using hm)]
      have hz : (gs.flatten).count x = 0 := by omega
      have hzz : gs.countP (fun g => decide (x ∈ g)) = 0 := by
        rw [List.countP_eq_zero]
        intro g' hg'
        simp only [decide_eq_true_eq]
        intro hxg'
        have : 0 < (gs.flatten).count x := by
          rw [List.count_pos_iff]
          exact List.mem_flatten.mpr ⟨g', hg', hxg'⟩
        omega
      omega

/-- No occurrences means no group contains the id. -/
theorem countP_mem_of_count_zero {L : List (List String)} {x : String}
    (h : (L.flatten).count x = 0) :
    L.countP (fun g => decide (x ∈ g)) = 0 := by
  rw [List.countP_eq_zero]
  intro g hg
  simp only [decide_eq_true_eq]
  intro hxg
  have : 0 < (L.flatten).count x := by
    rw [List.count_pos_iff]
    exact List.mem_flatten.mpr ⟨g, hg, hxg⟩
  omega

/-- No occurrences means membership in no group. -/
theorem not_mem_of_count_zero {L : List (List String)} {x : String}
    (h : (L.flatten).count x = 0) : ∀ g ∈ L, x ∉ g := by
  intro g hg hxg
  have : 0 < (L.flatten).count x := by
    rw [List.count_pos_iff]
    exact List.mem_flatten.mpr ⟨g, hg, hxg⟩
  omega

/-- Court membership counting coincides with counting over the mapped
occupancy lists. -/
theorem courts_countP_eq (cs : List Court) (x : String) :
    cs.countP (fun c => decide (x ∈ c.playingIds))
      = (cs.map Court.playingIds).countP (fun g => decide (x ∈ g)) := by
  rw [List.countP_map]
  rfl

/-- C3 (amended): in every state reachable by operations invoked with
valid arguments (fresh ids on creation, Promote and Swap on existing
`pool` participants, assignment to existing idle stations), every
participant's status matches its memberships: `ready` iff the id lies
in exactly one group, `playing` iff it lies in exactly one station's
occupancy, `pool` iff it lies in no group and no station.  (With
unchecked arguments the code can violate this: see the
counterexample.) -/
theorem status_consistency (σ : AppState) (h : GReach σ) :
    ∀ p ∈ σ.players,
      (p.status = Status.ready ↔
        σ.readySets.countP (fun g => decide (p.id ∈ g)) = 1) ∧
      (p.status = Status.playing ↔
        σ.courts.countP (fun c => decide (p.id ∈ c.playingIds)) = 1) ∧
      (p.status = Status.pool ↔
        ((∀ g ∈ σ.readySets, p.id ∉ g) ∧ ∀ c ∈ σ.courts, p.id ∉ c.playingIds)) := by
  obtain ⟨-, -, -, h4⟩ := SInv_reach σ h
  intro p hp
  have hOk := h4 p hp
  cases hst : p.status with
  | pool =>
    unfold statusOk at hOk
    rw [hst] at hOk
    obtain ⟨ho1, ho2⟩ := hOk
    have hg0 : σ.readySets.countP (fun g => decide (p.id ∈ g)) = 0 :=
      countP_mem_of_count_zero ho1
    have hc0 : σ.courts.countP (fun c => decide (p.id ∈ c.playingIds)) = 0 := by
      rw [courts_countP_eq]
      exact countP_mem_of_count_zero ho2
    refine ⟨⟨?_, ?_⟩, ⟨?_, ?_⟩, ⟨?_, ?_⟩⟩
    · intro he
      exact Status.noConfusion he
    · intro hcnt
      rw [hg0] at hcnt
      exact absurd hcnt (by decide)
    · intro he
      exact Status.noConfusion he
    · intro hcnt
      rw [hc0] at hcnt
      exact absurd hcnt (by decide)
    · intro _
      refine ⟨not_mem_of_count_zero ho1, ?_⟩
      intro c hc hxc
      exact not_mem_of_count_zero ho2 c.playingIds
        (List.mem_map_of_mem Court.playingIds hc) hxc
    · intro _
      rfl
  | ready =>
    unfold statusOk at hOk
    rw [hst] at hOk
    obtain ⟨ho1, ho2⟩ := hOk
    have hg1 : σ.readySets.countP (fun g => decide (p.id ∈ g)) = 1 :=
      countP_mem_of_count_one ho1
    have hc0 : σ.courts.countP (fun c => decide (p.id ∈ c.playingIds)) = 0 := by
      rw [courts_countP_eq]
      exact countP_mem_of_count_zero ho2
    refine ⟨⟨?_, ?_⟩, ⟨?_, ?_⟩, ⟨?_, ?_⟩⟩
    · intro _
      exact hg1
    · intro _
      rfl
    · intro he
      exact Status.noConfusion he
    · intro hcnt
      rw [hc0] at hcnt
      exact absurd hcnt (by decide)
    · intro he
      exact Status.noConfusion he
    · intro hmem
      exfalso
      have hgg : gOcc σ p.id = (σ.readySets.flatten).count p.id := rfl
      have hpos : 0 < (σ.readySets.flatten).count p.id := by omega
      rcases List.mem_flatten.mp (List.count_pos_iff.mp hpos) with ⟨g, hg, hxg⟩
      exact (hmem.1 g hg) hxg
  | playing =>
    unfold statusOk at hOk
    rw [hst] at hOk
    obtain ⟨ho1, ho2⟩ := hOk
    have hg0 : σ.readySets.countP (fun g => decide (p.id ∈ g)) = 0 :=
      countP_mem_of_count_zero ho1
    have hc1 : σ.courts.countP (fun c => decide (p.id ∈ c.playingIds)) = 1 := by
      rw [courts_countP_eq]
      exact countP_mem_of_count_one ho2
    refine ⟨⟨?_, ?_⟩, ⟨?_, ?_⟩, ⟨?_, ?_⟩⟩
    · intro he
      exact Status.noConfusion he
    · intro hcnt
      rw [hg0] at hcnt
      exact absurd hcnt (by decide)
    · intro _
      exact hc1
    · intro _
      rfl
    · intro he
      exact Status.noConfusion he
    · intro hmem
      exfalso
      have hcc : cOcc σ p.id = ((σ.courts.map Court.playingIds).flatten).count p.id := rfl
      have hpos : 0 < ((σ.courts.map Court.playingIds).flatten).count p.id := by omega
      rcases List.mem_flatten.mp (List.count_pos_iff.mp hpos) with ⟨l, hl, hxl⟩
      rcases List.mem_map.mp hl with ⟨c, hc, rfl⟩
      exact (hmem.2 c hc) hxl

/-- C3 witness: after adding participant `p1` and promoting it, the
consistency theorem yields that its id lies in exactly one group. -/
theorem status_consistency_witness :
    ((addToReady (confirmAddPlayer initState "p1" "P1" Gender.male Skill.novice)
        "p1").readySets).countP (fun g => decide ("p1" ∈ g)) = 1 := by
  have h := status_consistency
    (addToReady (confirmAddPlayer initState "p1" "P1" Gender.male Skill.novice) "p1")
    (GReach.step (GReach.step GReach.init
      (GStep.addP _ "p1" "P1" Gender.male Skill.novice (by decide)))
      (GStep.promote _ "p1" (by decide)))
    ⟨"p1", "P1", Gender.male, Skill.novice, 0, Status.ready⟩ (by decide)
  exact h.1.mp rfl
